import Mathlib

/-!
A shallow embedding of the shanten-number / wait analyzer of the
`japanese_mahjong_theory` repository (`src/analyzer.rs`), together with
theorems checking the natural-language specification against it.

The repository's `mahjong` value-type module (tiles, melds, hand) is not part
of the analyzed sources; those small substrate definitions are modelled from
the specification (each such definition carries a doc comment saying so).
All algorithmic content (parsing, decomposition search, distance evaluators,
wait analysis) is translated from `src/analyzer.rs`.

Recursive functions whose Rust originals recurse on shrinking vectors are
given an explicit fuel parameter (initialized to the length of the input, the
exact bound the Rust recursion depth obeys) so that they are structurally
recursive and compute by kernel reduction.
-/

set_option maxHeartbeats 1000000

/-- Modelled from the spec (§3): a tile is one of 34 kinds, three numbered
suits with ranks 1–9 plus one honor suit with ranks 1–7.  The Rust source
(`crate::mahjong`) stores the rank as a `u8`; hands produced by the parser
only contain ranks 1–9. -/
inductive Hai where
  | Manzu : Nat → Hai
  | Pinzu : Nat → Hai
  | Souzu : Nat → Hai
  | Jihai : Nat → Hai
deriving DecidableEq, Repr

/-- Suit discriminant, in the declaration order of the Rust enum. -/
def Hai.suitIdx : Hai → Nat
  | .Manzu _ => 0
  | .Pinzu _ => 1
  | .Souzu _ => 2
  | .Jihai _ => 3

/-- The numeric rank stored in the tile. -/
def Hai.rank : Hai → Nat
  | .Manzu n => n
  | .Pinzu n => n
  | .Souzu n => n
  | .Jihai n => n

/-- Modelled from the spec: the derived total order of tiles (suit first,
then rank), matching Rust `#[derive(PartialOrd, Ord)]` on the `Hai` enum. -/
def haiLe (a b : Hai) : Bool :=
  decide (a.suitIdx < b.suitIdx) || (a.suitIdx == b.suitIdx && decide (a.rank ≤ b.rank))

/-- Strict version of `haiLe`. -/
def haiLt (a b : Hai) : Bool :=
  decide (a.suitIdx < b.suitIdx) || (a.suitIdx == b.suitIdx && decide (a.rank < b.rank))

/-- Modelled from the spec (§4.1): the tile immediately above a tile in the
same suit; absent at the suit's rank boundary and never defined across the
honor suit.  The `Bool` argument mirrors the Rust signature `next(dora:
bool)`; the analyzer only ever passes `false`. -/
def Hai.next (h : Hai) (_dora : Bool) : Option Hai :=
  match h with
  | .Manzu n => if n < 9 then some (.Manzu (n + 1)) else none
  | .Pinzu n => if n < 9 then some (.Pinzu (n + 1)) else none
  | .Souzu n => if n < 9 then some (.Souzu (n + 1)) else none
  | .Jihai _ => none

/-- Modelled from the spec (§4.1): the tile immediately below a tile in the
same suit. -/
def Hai.before (h : Hai) (_dora : Bool) : Option Hai :=
  match h with
  | .Manzu n => if 1 < n then some (.Manzu (n - 1)) else none
  | .Pinzu n => if 1 < n then some (.Pinzu (n - 1)) else none
  | .Souzu n => if 1 < n then some (.Souzu (n - 1)) else none
  | .Jihai _ => none

/-- Modelled from the spec (§3): the 34 tile kinds in canonical order
(`Hai::gen_all_type` in the Rust source). -/
def Hai.gen_all_type : List Hai :=
  ((List.range 9).map fun n => Hai.Manzu (n + 1)) ++
  ((List.range 9).map fun n => Hai.Pinzu (n + 1)) ++
  ((List.range 9).map fun n => Hai.Souzu (n + 1)) ++
  ((List.range 7).map fun n => Hai.Jihai (n + 1))

/-- Modelled from the spec (§4.3) and the source doc comment on `Decomposer`
("ukihai_vec only record 1m9m1p9p1s9s1z2z3z4z5z6z7z"): the thirteen
terminal/honor tiles, in sorted order. -/
def YAOCHUUPAI : List Hai :=
  [Hai.Manzu 1, Hai.Manzu 9, Hai.Pinzu 1, Hai.Pinzu 9, Hai.Souzu 1, Hai.Souzu 9,
   Hai.Jihai 1, Hai.Jihai 2, Hai.Jihai 3, Hai.Jihai 4, Hai.Jihai 5, Hai.Jihai 6, Hai.Jihai 7]

/-- A completed group: run, triplet or quad (Rust `Mentsu`). -/
inductive Mentsu where
  | Juntsu : Hai → Hai → Hai → Mentsu
  | Koutsu : Hai → Mentsu
  | Kantsu : Hai → Mentsu
deriving DecidableEq, Repr

/-- A pair (Rust tuple struct `Toitsu(Hai)`). -/
structure Toitsu where
  hai : Hai
deriving DecidableEq, Repr

/-- A partial run (Rust tuple struct `Taatsu(Hai, Hai)`). -/
structure Taatsu where
  fst : Hai
  snd : Hai
deriving DecidableEq, Repr

/-- A floating tile (Rust tuple struct `Ukihai(Hai)`). -/
structure Ukihai where
  hai : Hai
deriving DecidableEq, Repr

deriving instance DecidableEq for Except

/-- Modelled from the spec (§3/§6): a hand is a concealed tile list (or a
parse error) plus declared open groups, mirroring Rust
`Tehai { menzen: Result<Vec<Hai>, String>, fuuro: Vec<Mentsu> }`. -/
structure Tehai where
  menzen : Except String (List Hai)
  fuuro : List Mentsu
deriving DecidableEq, Repr

/-- `Tehai::new`. -/
def Tehai.new (menzen : Except String (List Hai)) (fuuro : List Mentsu) : Tehai :=
  ⟨menzen, fuuro⟩

/-- The tile-pool tracker from `src/game/mahjong/haiyama.rs`: a map from tile
kind to remaining count.  The analyzer receives it as an optional argument
and (as proved below) never reads it. -/
structure Haiyama where
  map : List (Hai × Nat)
deriving DecidableEq, Repr

namespace input

/-- `input::check_hai_in_range` from `src/analyzer.rs`. -/
def check_hai_in_range : List Hai → Bool
  | [] => true
  | h :: t =>
    match h with
    | .Manzu n => if n < 1 ∨ 9 < n then false else check_hai_in_range t
    | .Pinzu n => if n < 1 ∨ 9 < n then false else check_hai_in_range t
    | .Souzu n => if n < 1 ∨ 9 < n then false else check_hai_in_range t
    | .Jihai n => if n < 1 ∨ 7 < n then false else check_hai_in_range t

/-- The inner `check_juntsu` of `input::check_mentsu`: three conditional
swaps sort the ranks, then consecutiveness is checked. -/
def check_juntsu (a b c : Nat) : Option (Nat × Nat × Nat) :=
  let ab := if a > b then (b, a) else (a, b)
  let ac := if ab.1 > c then (c, ab.1) else (ab.1, c)
  let bc := if ab.2 > ac.2 then (ac.2, ab.2) else (ab.2, ac.2)
  if ac.1 + 1 = bc.1 ∧ bc.1 + 1 = bc.2 then some (ac.1, bc.1, bc.2) else none

/-- `input::check_mentsu` from `src/analyzer.rs`. -/
def check_mentsu (hai_vec : List Hai) : Option Mentsu :=
  if check_hai_in_range hai_vec = false then none
  else
    match hai_vec with
    | [a, b, c, d] => if a = b ∧ a = c ∧ a = d then some (.Kantsu a) else none
    | [a, b, c] =>
      if a = b ∧ a = c then some (.Koutsu a)
      else
        match a, b, c with
        | .Manzu x, .Manzu y, .Manzu z =>
          match check_juntsu x y z with
          | some (x, y, z) => some (.Juntsu (.Manzu x) (.Manzu y) (.Manzu z))
          | none => none
        | .Pinzu x, .Pinzu y, .Pinzu z =>
          match check_juntsu x y z with
          | some (x, y, z) => some (.Juntsu (.Pinzu x) (.Pinzu y) (.Pinzu z))
          | none => none
        | .Souzu x, .Souzu y, .Souzu z =>
          match check_juntsu x y z with
          | some (x, y, z) => some (.Juntsu (.Souzu x) (.Souzu y) (.Souzu z))
          | none => none
        | _, _, _ => none
    | _ => none

/-- The tile constructor applied by `push_into_hai_vec`: a digit character
and a suit character make a tile (`'8'` as u8 minus 48 is the rank 8). -/
def convChar (tile_type : Char) (c : Char) : Hai :=
  match tile_type with
  | 'm' => .Manzu (c.toNat - 48)
  | 'p' => .Pinzu (c.toNat - 48)
  | 's' => .Souzu (c.toNat - 48)
  | 'z' => .Jihai (c.toNat - 48)
  | _ => .Manzu 0

/-- `push_into_hai_vec`: flush the digit stash into a tile vector; an empty
stash is an error ("Unused type character"). -/
def push_into_hai_vec (tile_type : Char) (idx : Nat) (stash : List Char)
    (output : List Hai) : Except String (List Hai) :=
  if stash.length = 0 then
    .error ("Unused type character " ++ tile_type.toString ++ " at index " ++ toString idx ++ ".")
  else
    .ok (output ++ stash.map (convChar tile_type))

/-- The accumulating state of `input::parse`: concealed tiles, declared
melds, the digit stash, the meld tile stash and the inside-brackets flag. -/
structure ParseState where
  menzen : List Hai
  fuuro : List Mentsu
  hai_stash : List Char
  menzen_stash : List Hai
  on_mentsu : Bool
deriving Repr

/-- The character loop of `input::parse`, one constructor case per character
class of the Rust `match`.  Early returns build a `Tehai` with an error
message; reaching the end of the input applies the final 3k+2 check and
sorts the concealed tiles. -/
def parseLoop : List Char → Nat → ParseState → Tehai
  | [], _, st =>
    if st.menzen.length % 3 ≠ 2 then
      Tehai.new (.error ("The number of tiles on hand must be 3*k+2, but "
        ++ toString st.menzen.length ++ " provided.")) st.fuuro
    else
      Tehai.new (.ok (st.menzen.insertionSort (fun a b => haiLe a b = true))) st.fuuro
  | ch :: rest, idx, st =>
    if ch = 'm' ∨ ch = 'p' ∨ ch = 's' ∨ ch = 'z' then
      if st.on_mentsu then
        match push_into_hai_vec ch idx st.hai_stash st.menzen_stash with
        | .error e => Tehai.new (.error e) st.fuuro
        | .ok out => parseLoop rest (idx + 1) { st with menzen_stash := out, hai_stash := [] }
      else
        match push_into_hai_vec ch idx st.hai_stash st.menzen with
        | .error e => Tehai.new (.error e) st.fuuro
        | .ok out => parseLoop rest (idx + 1) { st with menzen := out, hai_stash := [] }
    else if '1' ≤ ch ∧ ch ≤ '9' then
      parseLoop rest (idx + 1) { st with hai_stash := st.hai_stash ++ [ch] }
    else if ch = '[' then
      if st.on_mentsu then
        Tehai.new (.error ("Second opening bracket found at index " ++ toString idx ++ ".")) st.fuuro
      else if 0 < st.hai_stash.length then
        Tehai.new (.error ("Need m p s z but find opening bracket at index "
          ++ toString idx ++ ".")) st.fuuro
      else
        parseLoop rest (idx + 1) { st with on_mentsu := true }
    else if ch = ']' then
      if st.on_mentsu = false then
        Tehai.new (.error ("Unmatched closing bracket found at index " ++ toString idx ++ ".")) st.fuuro
      else if 0 < st.hai_stash.length then
        Tehai.new (.error ("Need m p s z but find closing bracket at index "
          ++ toString idx ++ ".")) st.fuuro
      else
        match check_mentsu st.menzen_stash with
        | some meld =>
          parseLoop rest (idx + 1) { st with fuuro := st.fuuro ++ [meld], on_mentsu := false }
        | none =>
          Tehai.new (.error ("Not a valid meld before index " ++ toString idx ++ ".")) st.fuuro
    else if ch = ' ' then
      parseLoop rest (idx + 1) st
    else
      Tehai.new (.error ("Unknown character at index " ++ toString idx ++ ".")) st.fuuro

/-- `input::parse` from `src/analyzer.rs`. -/
def parse (string : String) : Tehai :=
  parseLoop string.data 0 ⟨[], [], [], [], false⟩

end input

namespace shanten

/-- `shanten::Hourakei`: the three completion patterns. -/
inductive Hourakei where
  | Mentsute
  | Chiitoitsu
  | Kokushimusou
deriving DecidableEq, Repr

/-- `shanten::Decomposer`: one decomposition of the concealed tiles. -/
structure Decomposer where
  mentsu_vec : List Mentsu
  toitsu_vec : List Toitsu
  taatsu_vec : List Taatsu
  ukihai_vec : List Ukihai
  chiitoutsu_kokushimusou_valid_tile_vec : List Hai
  hourakei : Hourakei
deriving DecidableEq, Repr

/-- `Decomposer::new`. -/
def Decomposer.new : Decomposer :=
  ⟨[], [], [], [], [], .Mentsute⟩

/-- `Decomposer::mentsu`: push a completed group. -/
def Decomposer.mentsu (d : Decomposer) (m : Mentsu) : Decomposer :=
  { d with mentsu_vec := d.mentsu_vec ++ [m] }

/-- `Decomposer::toitsu`: push a pair. -/
def Decomposer.toitsu (d : Decomposer) (t : Toitsu) : Decomposer :=
  { d with toitsu_vec := d.toitsu_vec ++ [t] }

/-- `Decomposer::taatsu`: push a partial run. -/
def Decomposer.taatsu (d : Decomposer) (t : Taatsu) : Decomposer :=
  { d with taatsu_vec := d.taatsu_vec ++ [t] }

/-- `Decomposer::ukihai`: push a floating tile. -/
def Decomposer.ukihai (d : Decomposer) (u : Ukihai) : Decomposer :=
  { d with ukihai_vec := d.ukihai_vec ++ [u] }

/-- `Decomposer::chiitoutsu`: record a valid lone tile for seven pairs. -/
def Decomposer.chiitoutsu (d : Decomposer) (h : Hai) : Decomposer :=
  { d with chiitoutsu_kokushimusou_valid_tile_vec :=
      d.chiitoutsu_kokushimusou_valid_tile_vec ++ [h] }

/-- `Decomposer::kokushimusou`: record a valid tile for thirteen orphans. -/
def Decomposer.kokushimusou (d : Decomposer) (h : Hai) : Decomposer :=
  { d with chiitoutsu_kokushimusou_valid_tile_vec :=
      d.chiitoutsu_kokushimusou_valid_tile_vec ++ [h] }

/-- `Decomposer::shanten_number` from `src/analyzer.rs`.  The duplicate-pair
check builds a `HashSet` of the pair list in Rust; the set is smaller than
the list exactly when the list has a duplicate, so it is rendered with
`List.dedup`.  All Rust arithmetic here is on `usize` (no subtraction below
zero occurs for decomposers arising from a hand) and the result is an `i32`. -/
def Decomposer.shanten_number (d : Decomposer) (hai_number : Nat) : Int :=
  match d.hourakei with
  | .Mentsute =>
    if d.toitsu_vec.dedup.length ≠ d.toitsu_vec.length then 13
    else
      let max_mentsu_toitsu_taatsu := (hai_number + 1) / 3
      let taatsu_num := min (max_mentsu_toitsu_taatsu - 1 - d.mentsu_vec.length)
        d.taatsu_vec.length
      let toitsu_num := min (max_mentsu_toitsu_taatsu - d.mentsu_vec.length - taatsu_num)
        d.toitsu_vec.length
      ((hai_number / 3) * 2 : Nat) - 2 * (d.mentsu_vec.length : Int)
        - (toitsu_num : Int) - (taatsu_num : Int)
  | .Chiitoitsu =>
    13 - 2 * (d.toitsu_vec.length : Int)
      - (min d.chiitoutsu_kokushimusou_valid_tile_vec.length (7 - d.toitsu_vec.length) : Nat)
  | .Kokushimusou =>
    13 - (d.chiitoutsu_kokushimusou_valid_tile_vec.length : Int)

/-- `shanten::split` from `src/analyzer.rs`, the recursive decomposition
search for the standard pattern.  `remove_once` is `List.erase` (both remove
the first occurrence).  The fuel argument makes the recursion structural;
every recursive call of the Rust function removes at least the tile
`current` from the remaining hand, so fuel `menzen.length` (supplied by
`split` below) always suffices.  Running out of fuel yields `[]`, which (as
proved below) never happens with that initial fuel. -/
def splitFuel : Nat → List Hai → Decomposer → List Decomposer
  | _, [], d => [d]
  | _, [x], d => [d.ukihai ⟨x⟩]
  | 0, _ :: _ :: _, _ => []
  | fuel + 1, c :: n :: rest, d =>
    let menzen := c :: n :: rest
    (if c = n then splitFuel fuel ((menzen.erase c).erase c) (d.toitsu ⟨c⟩) else [])
    ++ (match rest with
        | nn :: _ =>
          if c = n ∧ c = nn then
            splitFuel fuel (((menzen.erase c).erase c).erase c) (d.mentsu (.Koutsu c))
          else []
        | [] => [])
    ++ (match c with
        | .Jihai _ => []
        | _ =>
          match c.next false with
          | none => []
          | some c1 =>
            if 0 < (menzen.filter (fun x => x == c1)).length then
              splitFuel fuel ((menzen.erase c).erase c1) (d.taatsu ⟨c, c1⟩)
              ++ (match c1.next false with
                  | some c2 =>
                    if 0 < (menzen.filter (fun x => x == c2)).length then
                      splitFuel fuel (((menzen.erase c).erase c1).erase c2)
                        (d.mentsu (.Juntsu c c1 c2))
                    else []
                  | none => [])
            else
              match c1.next false with
              | some c2 =>
                if 0 < (menzen.filter (fun x => x == c2)).length then
                  splitFuel fuel ((menzen.erase c).erase c2) (d.taatsu ⟨c, c2⟩)
                else []
              | none => [])
    ++ splitFuel fuel (menzen.erase c) (d.ukihai ⟨c⟩)

/-- The decomposition search on a concealed hand (fuel instantiated to the
hand size, the depth bound the Rust recursion obeys). -/
def split (menzen : List Hai) (d : Decomposer) : List Decomposer :=
  splitFuel menzen.length menzen d

/-- The seven-pairs scan inside `shanten::calculate`: walk the sorted
concealed tiles with the `last_hai` / `last_hai_used` state of the Rust
loop.  The first duplicate of a value becomes a pair, further duplicates
floating tiles, a singleton a valid lone tile. -/
def chiitoiScan (last : Hai) (used : Bool) : List Hai → Decomposer → Decomposer
  | [], d => if used = false then d.chiitoutsu last else d
  | cur :: rest, d =>
    if cur = last then
      if used = false then chiitoiScan last true rest (d.toitsu ⟨cur⟩)
      else chiitoiScan last used rest (d.ukihai ⟨cur⟩)
    else
      chiitoiScan cur false rest (if used = false then d.chiitoutsu last else d)

/-- The thirteen-orphans merge walk inside `shanten::calculate`: the sorted
concealed tiles against `YAOCHUUPAI`, with the `yaochuupai_iter_changed` and
`toitsu_included` flags of the Rust loop.  Each step consumes one element of
one of the two lists, so fuel `yao.length + menzen.length` (supplied by
`kokushiDecomposer`) always suffices. -/
def kokushiMerge : Nat → List Hai → List Hai → Bool → Bool → Decomposer → Decomposer
  | 0, _, _, _, _, d => d
  | _ + 1, [], _, _, _, d => d
  | _ + 1, _ :: _, [], _, _, d => d
  | fuel + 1, l :: ys, r :: ms, changed, toitsu_included, d =>
    if haiLt l r then kokushiMerge fuel ys (r :: ms) true toitsu_included d
    else if haiLt r l then kokushiMerge fuel (l :: ys) ms changed toitsu_included (d.ukihai ⟨r⟩)
    else if changed then kokushiMerge fuel (l :: ys) ms false toitsu_included (d.kokushimusou r)
    else if toitsu_included = false then kokushiMerge fuel (l :: ys) ms false true (d.kokushimusou r)
    else kokushiMerge fuel (l :: ys) ms false toitsu_included (d.ukihai ⟨r⟩)

/-- The seven-pairs decomposer built by `shanten::calculate` (the `Analyze
Chiitoitsu` block): guarded there by a 14-tile concealed hand, so the list
is never empty; on an empty list no decomposer is produced in Rust and the
entry decomposer is returned unchanged here. -/
def chiitoiDecomposer (menzen : List Hai) : Decomposer :=
  match menzen with
  | [] => { Decomposer.new with hourakei := .Chiitoitsu }
  | h :: t => chiitoiScan h false t { Decomposer.new with hourakei := .Chiitoitsu }

/-- The thirteen-orphans decomposer built by `shanten::calculate` (the
`Analyze Kokushimusou` block). -/
def kokushiDecomposer (menzen : List Hai) : Decomposer :=
  kokushiMerge (YAOCHUUPAI.length + menzen.length) YAOCHUUPAI menzen true false
    { Decomposer.new with hourakei := .Kokushimusou }

/-- The `push_into_decomposers` closure of `shanten::calculate`: track the
minimum shanten number and the decomposers achieving it (a `HashSet` in
Rust, rendered as a duplicate-free list in insertion order). -/
def stepDecomposer (hai_number : Nat) (st : Int × List Decomposer) (d : Decomposer) :
    Int × List Decomposer :=
  if d.shanten_number hai_number = st.1 then
    (st.1, if d ∈ st.2 then st.2 else st.2 ++ [d])
  else if d.shanten_number hai_number < st.1 then (d.shanten_number hai_number, [d])
  else st

/-- The `Analyze Mentsute` block of `shanten::calculate`: run the search,
tag every decomposition with the standard pattern and fold it into the
minimum tracker (whose initial minimum is `(menzen.len() / 3) * 2`). -/
def mentsuteState (menzen : List Hai) : Int × List Decomposer :=
  ((split menzen Decomposer.new).map (fun d => { d with hourakei := .Mentsute })).foldl
    (stepDecomposer menzen.length) ((((menzen.length / 3) * 2 : Nat) : Int), [])

/-- The body of `shanten::calculate` on the concealed tiles and the number
of open groups: the standard-pattern fold, then — only for a 14-tile
concealed hand with no open groups — the seven-pairs and thirteen-orphans
decomposers are folded in. -/
def calcState (menzen : List Hai) (fuuroLen : Nat) : Int × List Decomposer :=
  let st1 := mentsuteState menzen
  let st2 :=
    if menzen.length = 14 ∧ fuuroLen = 0 then
      match menzen with
      | [] => st1
      | _ :: _ => stepDecomposer menzen.length st1 (chiitoiDecomposer menzen)
    else st1
  if menzen.length = 14 ∧ fuuroLen = 0 then
    stepDecomposer menzen.length st2 (kokushiDecomposer menzen)
  else st2

/-- `shanten::calculate` from `src/analyzer.rs`. -/
def calculate (tehai : Tehai) : Except String (Int × List Decomposer) := do
  let menzen_vec ← tehai.menzen
  pure (calcState menzen_vec tehai.fuuro.length)

end shanten

namespace machi

/-- Insert (or overwrite) a key in the wait-tile map.  The Rust field is a
`BTreeMap<Hai, u8>`; it is rendered as an association list without duplicate
keys, queried through `List.lookup`. -/
def mapInsert (machihai : List (Hai × Nat)) (k : Hai) (v : Nat) : List (Hai × Nat) :=
  (k, v) :: machihai.filter (fun p => !(p.1 == k))

/-- Remove a key from the wait-tile map. -/
def mapRemove (machihai : List (Hai × Nat)) (k : Hai) : List (Hai × Nat) :=
  machihai.filter (fun p => !(p.1 == k))

/-- `machi::Condition`: the wait analysis for one discard candidate. -/
structure Condition where
  sutehai : Hai
  machihai : List (Hai × Nat)
  furiten : Bool
  shanten_number : Int
  hai_number : Nat
deriving DecidableEq, Repr

/-- `Condition::new`. -/
def Condition.new (sutehai : Hai) (shanten_number : Int) (hai_number : Nat) : Condition :=
  ⟨sutehai, [], false, shanten_number, hai_number⟩

/-- `Condition::nokori`: total remaining count over the wait map. -/
def Condition.nokori (c : Condition) : Nat :=
  c.machihai.foldl (fun acc p => acc + p.2) 0

/-- The `check_count` closure of `Condition::finally_handle`: decrement a
present key, removing it when it reaches zero. -/
def check_count (machihai : List (Hai × Nat)) (item : Hai) : List (Hai × Nat) :=
  match machihai.lookup item with
  | some v =>
    if 1 < v then mapInsert machihai item (v - 1)
    else if v = 1 then mapRemove machihai item
    else machihai
  | none => machihai

/-- The wait tiles contributed by one partial run in the Mentsute branch of
`Condition::handle`: a closed-interval gap waits on its middle tile (an
error if the suit boundary makes it absent, which cannot happen for partial
runs built by the search), an adjacent pair waits on both flanks when they
exist.  The Rust loop is per numbered suit with identical bodies; honor or
mixed partial runs contribute nothing. -/
def taatsuMachi (t : Taatsu) : Except String (List Hai) :=
  let numbered : Nat → Nat → Except String (List Hai) := fun lhs rhs =>
    if rhs - lhs = 2 then
      match t.fst.next false with
      | some machi => .ok [machi]
      | none => .error "Unhandled error: Get None between taatsu tiles."
    else if rhs - lhs = 1 then
      .ok ((t.fst.before false).toList ++ (t.snd.next false).toList)
    else .ok []
  match t.fst, t.snd with
  | .Manzu lhs, .Manzu rhs => numbered lhs rhs
  | .Pinzu lhs, .Pinzu rhs => numbered lhs rhs
  | .Souzu lhs, .Souzu rhs => numbered lhs rhs
  | _, _ => .ok []

/-- All wait tiles from the partial-run loop of `Condition::handle`, in loop
order. -/
def taatsuWaits : List Taatsu → Except String (List Hai)
  | [] => .ok []
  | t :: rest => do
    let cur ← taatsuMachi t
    let more ← taatsuWaits rest
    .ok (cur ++ more)

/-- The second-order waits around a floating tile in the Mentsute branch of
`Condition::handle`: one and two steps below, then one and two steps above
(numbered suits only). -/
def flankWaits (h : Hai) : List Hai :=
  match h with
  | .Jihai _ => []
  | _ =>
    (match h.before false with
     | some m1 => m1 :: (match m1.before false with | some m2 => [m2] | none => [])
     | none => [])
    ++ (match h.next false with
        | some m1 => m1 :: (match m1.next false with | some m2 => [m2] | none => [])
        | none => [])

/-- The floating-tile waits of the Mentsute branch of `Condition::handle`:
every floating tile other than the discard candidate, plus its flanking
tiles when groups and partial runs are still short of the limit. -/
def ukihaiWaits (sutehai : Hai) (withFlanks : Bool) (ukis : List Ukihai) : List Hai :=
  ukis.foldl
    (fun acc u =>
      if u.hai = sutehai then acc
      else acc ++ u.hai :: (if withFlanks then flankWaits u.hai else []))
    []

/-- The adjacent-duplicate scan of the Kokushimusou branch of
`Condition::handle` (the valid-tile list is in sorted merge order, so a
duplicate is adjacent). -/
def hasAdjacentDup : Hai → List Hai → Bool
  | _, [] => false
  | last, h :: t => if h = last then true else hasAdjacentDup h t

/-- The missing-yaochuupai merge walk of the Kokushimusou branch of
`Condition::handle` (only reached when a duplicate exists).  When the valid
list is exhausted the Rust loop ends; the current yaochuupai value is
skipped (the `if !yaochuupai_pair` insert after the loop is dead there) and
the remaining iterator values are all inserted.  Fuel as in `kokushiMerge`. -/
def kokushiMachiMerge : Nat → List Hai → List Hai → Bool → List Hai
  | 0, _, _, _ => []
  | _ + 1, [], _, _ => []
  | _ + 1, _ :: ys, [], _ => ys
  | fuel + 1, l :: ys, r :: rs, used =>
    if haiLt l r then
      (if used = false then [l] else []) ++ kokushiMachiMerge fuel ys (r :: rs) false
    else if haiLt r l then kokushiMachiMerge fuel (l :: ys) rs used
    else kokushiMachiMerge fuel (l :: ys) rs true

/-- The list of wait tiles inserted by `Condition::handle` for one
decomposer, in insertion order.  Every insertion in the Rust source is
`self.machihai.insert(tile, 4)`, so the map update is the fold of
`mapInsert · · 4` over this list (performed by `Condition.handle` below). -/
def Condition.waitKeys (c : Condition) (d : shanten.Decomposer) :
    Except String (List Hai) :=
  match d.hourakei with
  | .Mentsute =>
    let max_mentsu_toitsu_taatsu := (c.hai_number + 1) / 3
    if d.mentsu_vec.length + d.taatsu_vec.length > max_mentsu_toitsu_taatsu - 1 then .ok []
    else if d.mentsu_vec.length + d.taatsu_vec.length + d.toitsu_vec.length
        > max_mentsu_toitsu_taatsu then .ok []
    else do
      let tw ← taatsuWaits d.taatsu_vec
      let toitsuW := if 1 < d.toitsu_vec.length then d.toitsu_vec.map (·.hai) else []
      let shortW :=
        if d.mentsu_vec.length + d.taatsu_vec.length + d.toitsu_vec.length
            < max_mentsu_toitsu_taatsu then
          d.toitsu_vec.map (·.hai)
          ++ ukihaiWaits c.sutehai
            (d.mentsu_vec.length + d.taatsu_vec.length < max_mentsu_toitsu_taatsu - 1)
            d.ukihai_vec
        else []
      .ok (tw ++ toitsuW ++ shortW)
  | .Chiitoitsu =>
    if 7 ≤ d.toitsu_vec.length + d.chiitoutsu_kokushimusou_valid_tile_vec.length then
      .ok (d.chiitoutsu_kokushimusou_valid_tile_vec.filter (fun h => !(h == c.sutehai)))
    else
      .ok (d.toitsu_vec.foldl (fun all_hai t => all_hai.erase t.hai) Hai.gen_all_type)
  | .Kokushimusou =>
    if (match d.chiitoutsu_kokushimusou_valid_tile_vec with
        | [] => false
        | first :: t => hasAdjacentDup first t) = false then
      .ok YAOCHUUPAI
    else
      .ok (kokushiMachiMerge
        (YAOCHUUPAI.length + d.chiitoutsu_kokushimusou_valid_tile_vec.length)
        YAOCHUUPAI d.chiitoutsu_kokushimusou_valid_tile_vec false)

/-- `Condition::handle` from `src/analyzer.rs`. -/
def Condition.handle (c : Condition) (d : shanten.Decomposer) : Except String Condition :=
  if c.shanten_number ≤ -2 then
    .error "Unhandled error: shanten number below -1."
  else if c.shanten_number = -1 then .ok c
  else if ¬ d.ukihai_vec.contains ⟨c.sutehai⟩
      ∧ ¬ (d.hourakei = .Chiitoitsu
           ∧ d.chiitoutsu_kokushimusou_valid_tile_vec.contains c.sutehai) then
    .ok c
  else do
    let ks ← c.waitKeys d
    .ok { c with machihai := ks.foldl (fun m k => mapInsert m k 4) c.machihai }

/-- The tile occurrences of a declared meld, as processed one by one by the
`check_count` calls of `Condition::finally_handle`. -/
def mentsuToList : Mentsu → List Hai
  | .Juntsu a b c => [a, b, c]
  | .Koutsu k => [k, k, k]
  | .Kantsu k => [k, k, k, k]

/-- `Condition::finally_handle` from `src/analyzer.rs`: decrement every wait
tile once per copy visible in the concealed hand and in the declared open
groups.  The `yama` argument is accepted and ignored — the Rust body is the
empty `if let Some(_yama) = yama {}` marked `// Not implement.`. -/
def Condition.finally_handle (c : Condition) (tehai : Tehai) (_yama : Option Haiyama) :
    Except String Condition := do
  let menzen_vec ← tehai.menzen
  let m1 := menzen_vec.foldl check_count c.machihai
  let m2 := tehai.fuuro.foldl (fun acc mentsu => (mentsuToList mentsu).foldl check_count acc) m1
  .ok { c with machihai := m2 }

/-- Deduplicating insertion, rendering `HashSet<Hai>::insert` with a
deterministic (first-insertion) order.  Only the membership of the set is
observable in the final, resorted output. -/
def insertUnique (l : List Hai) (x : Hai) : List Hai :=
  if x ∈ l then l else l ++ [x]

/-- The `sutehai_set` loop of `machi::analyze`: every floating tile of every
minimal decomposer, plus, for a seven-pairs decomposer with no floating
tile, its valid lone tiles. -/
def sutehaiSet (ds : List shanten.Decomposer) : List Hai :=
  ds.foldl
    (fun acc d =>
      let acc := d.ukihai_vec.foldl (fun a u => insertUnique a u.hai) acc
      if d.hourakei = .Chiitoitsu ∧ d.ukihai_vec.length = 0 then
        d.chiitoutsu_kokushimusou_valid_tile_vec.foldl insertUnique acc
      else acc)
    []

/-- The comparator of the final `sort_by` of `machi::analyze`: descending
total remaining count, ties by ascending discard tile. -/
def condLe (lhs rhs : Condition) : Prop :=
  rhs.nokori < lhs.nokori ∨ (lhs.nokori = rhs.nokori ∧ haiLe lhs.sutehai rhs.sutehai = true)

instance : DecidableRel condLe := fun _ _ => by
  unfold condLe; infer_instance

/-- `machi::analyze` from `src/analyzer.rs`. -/
def analyze (tehai : Tehai) (yama : Option Haiyama) : Except String (Int × List Condition) := do
  let (shanten_number, decomposers_set) ← shanten.calculate tehai
  if decomposers_set.length = 0 then
    .error "Unhandled error: No decomposer found."
  else if shanten_number = -1 then
    .ok (shanten_number, [])
  else if 0 ≤ shanten_number then do
    let menzen_vec ← tehai.menzen
    let conditions_vec ← (sutehaiSet decomposers_set).mapM (fun sutehai => do
      let c0 := Condition.new sutehai shanten_number menzen_vec.length
      let c1 ← decomposers_set.foldlM Condition.handle c0
      c1.finally_handle tehai yama)
    let kept := conditions_vec.filter (fun cond => 0 < cond.nokori)
    .ok (shanten_number, kept.insertionSort condLe)
  else
    .ok (shanten_number, [])

end machi

/-!  Specification-side counting functions, used to state the claims. -/

/-- Remove every copy of one tile value from a list. -/
def removeVal (m : List Hai) (v : Hai) : List Hai :=
  m.filter (fun x => !(x == v))

/-- The number of distinct tile values occurring at least twice
(the pair count of the seven-pairs reading of a hand). -/
def pairValueCount (m : List Hai) : Nat :=
  (m.toFinset.filter (fun v => 2 ≤ m.count v)).card

/-- The number of distinct tile values occurring exactly once
(the valid lone tiles of the seven-pairs reading of a hand). -/
def loneValueCount (m : List Hai) : Nat :=
  (m.toFinset.filter (fun v => m.count v = 1)).card

/-- The number of values of `yao` present in `m`. -/
def presentCount (yao m : List Hai) : Nat :=
  (yao.filter (fun y => m.contains y)).length

/-- Whether some value of `yao` occurs at least twice in `m`. -/
def dupFlag (yao m : List Hai) : Bool :=
  yao.any (fun y => decide (2 ≤ m.count y))

/-- The number of distinct terminal/honor values present in a hand. -/
def yaoPresentCount (m : List Hai) : Nat :=
  presentCount YAOCHUUPAI m

/-- Whether some terminal/honor value occurs at least twice in a hand. -/
def hasYaoDup (m : List Hai) : Bool :=
  dupFlag YAOCHUUPAI m

/-- The number of copies of a tile visible in a hand: concealed occurrences
plus occurrences inside declared open groups. -/
def visibleCount (menzen : List Hai) (fuuro : List Mentsu) (k : Hai) : Nat :=
  menzen.count k + ((fuuro.map machi.mentsuToList).flatten).count k

/-!  Basic facts about the tile order. -/

theorem haiLe_refl (a : Hai) : haiLe a a = true := by
  simp [haiLe]

theorem haiLe_total (a b : Hai) : haiLe a b = true ∨ haiLe b a = true := by
  simp only [haiLe, Bool.or_eq_true, Bool.and_eq_true, decide_eq_true_eq, beq_iff_eq]
  omega

theorem haiLe_antisymm {a b : Hai} (hab : haiLe a b = true) (hba : haiLe b a = true) : a = b := by
  simp only [haiLe, Bool.or_eq_true, Bool.and_eq_true, decide_eq_true_eq, beq_iff_eq] at hab hba
  cases a <;> cases b <;> simp_all [Hai.suitIdx, Hai.rank] <;> omega

theorem haiLt_iff_le_ne {a b : Hai} : haiLt a b = true ↔ haiLe a b = true ∧ a ≠ b := by
  constructor
  · intro h
    simp only [haiLt, Bool.or_eq_true, Bool.and_eq_true, decide_eq_true_eq, beq_iff_eq] at h
    constructor
    · simp only [haiLe, Bool.or_eq_true, Bool.and_eq_true, decide_eq_true_eq, beq_iff_eq]
      rcases h with h | ⟨h1, h2⟩
      · exact Or.inl h
      · exact Or.inr ⟨h1, le_of_lt h2⟩
    · rintro rfl
      omega
  · rintro ⟨hle, hne⟩
    simp only [haiLe, Bool.or_eq_true, Bool.and_eq_true, decide_eq_true_eq, beq_iff_eq] at hle
    simp only [haiLt, Bool.or_eq_true, Bool.and_eq_true, decide_eq_true_eq, beq_iff_eq]
    rcases hle with h | ⟨h1, h2⟩
    · exact Or.inl h
    · refine Or.inr ⟨h1, lt_of_le_of_ne h2 ?_⟩
      intro hr
      exact hne (by cases a <;> cases b <;> simp_all [Hai.suitIdx, Hai.rank])

theorem haiLt_irrefl (a : Hai) : haiLt a a = false := by
  by_contra h
  have := (haiLt_iff_le_ne (a := a) (b := a)).1 (by simpa using h)
  exact this.2 rfl

theorem not_haiLt_of_haiLe {a b : Hai} (h : haiLe a b = true) : haiLt b a = false := by
  by_contra hc
  have hlt := (haiLt_iff_le_ne (a := b) (b := a)).1 (by simpa using hc)
  exact hlt.2 (haiLe_antisymm hlt.1 h)

theorem haiLe_of_eq_false {a b : Hai} (h : haiLt a b = false) (hne : a ≠ b) :
    haiLt b a = true := by
  rcases haiLe_total a b with hle | hle
  · exact absurd ((haiLt_iff_le_ne).2 ⟨hle, hne⟩) (by simp [h])
  · exact (haiLt_iff_le_ne).2 ⟨hle, fun e => hne e.symm⟩

/-!  C7: the tile-pool argument of the wait analysis. -/

/-- C7: the claim says a supplied tile-pool tracker (`yama`) makes the
reported remaining counts account for copies visible elsewhere.  In the
source the pool is never read (`if let Some(_yama) = yama {}`, marked
`// Not implement.` in `Condition::finally_handle`), so the analysis result
with any pool is identical to the result without one; the remaining counts
only ever reflect the acting hand's own tiles.  This theorem evaluates the
code at every such input and is the divergence witness for the claim. -/
theorem analyze_ignores_yama (tehai : Tehai) (yama : Haiyama) :
    machi.analyze tehai (some yama) = machi.analyze tehai none := rfl

/-!  C9: totality of the decomposition search. -/

theorem splitFuel_one_le_length :
    ∀ (fuel : Nat) (l : List Hai) (d : shanten.Decomposer),
      l.length ≤ fuel + 1 → 1 ≤ (shanten.splitFuel fuel l d).length := by
  intro fuel
  induction fuel with
  | zero =>
    intro l d h
    match l with
    | [] => simp [shanten.splitFuel]
    | [x] => simp [shanten.splitFuel]
    | a :: b :: t => simp at h
  | succ f ih =>
    intro l d h
    match l with
    | [] => simp [shanten.splitFuel]
    | [x] => simp [shanten.splitFuel]
    | c :: n :: rest =>
      have hlast : 1 ≤ (shanten.splitFuel f ((c :: n :: rest).erase c)
          (d.ukihai ⟨c⟩)).length := by
        apply ih
        rw [List.erase_cons_head]
        simp only [List.length_cons] at h ⊢
        omega
      simp only [shanten.splitFuel, List.length_append]
      omega

/-- C9: the recursive decomposition search terminates on every finite
concealed tile list — rendered by the fuel-indexed `splitFuel`, whose fuel
(the hand size, the strict bound on the recursion depth since every
recursive call removes at least the current tile) is never exhausted — and
always emits at least one decomposition. -/
theorem split_total_emits_decomposition (menzen : List Hai) (d : shanten.Decomposer) :
    1 ≤ (shanten.split menzen d).length :=
  splitFuel_one_le_length menzen.length menzen d (by omega)

/-!  Facts about the minimum tracker of `shanten::calculate`. -/

theorem calculate_ok {tehai : Tehai} {menzen : List Hai} (hok : tehai.menzen = .ok menzen) :
    shanten.calculate tehai = .ok (shanten.calcState menzen tehai.fuuro.length) := by
  simp [shanten.calculate, hok, Bind.bind, Except.bind, Pure.pure, Except.pure]

theorem stepDecomposer_fst_le (n : Nat) (st : Int × List shanten.Decomposer)
    (d : shanten.Decomposer) : (shanten.stepDecomposer n st d).1 ≤ st.1 := by
  unfold shanten.stepDecomposer
  split_ifs with h1 h2 h3 <;> simp <;> omega

theorem stepDecomposer_mem {n : Nat} {st : Int × List shanten.Decomposer}
    {d x : shanten.Decomposer} (hx : x ∈ (shanten.stepDecomposer n st d).2) :
    x ∈ st.2 ∨ x = d := by
  unfold shanten.stepDecomposer at hx
  split_ifs at hx <;> simp_all <;> tauto

theorem stepDecomposer_inv {n : Nat} {st : Int × List shanten.Decomposer}
    (d : shanten.Decomposer) (h : ∀ x ∈ st.2, x.shanten_number n = st.1) :
    ∀ x ∈ (shanten.stepDecomposer n st d).2,
      x.shanten_number n = (shanten.stepDecomposer n st d).1 := by
  intro x hx
  unfold shanten.stepDecomposer at hx ⊢
  split_ifs at hx ⊢ with h1 h2 h3
  · simp_all
  · next =>
    simp only at hx
    rcases List.mem_append.1 hx with hmem | hmem
    · simp only
      exact h x hmem
    · simp only [List.mem_singleton] at hmem
      subst hmem
      simpa using h1
  · simp only [List.mem_singleton] at hx
    subst hx
    simp
  · exact h x hx

theorem foldl_step_fst_le (n : Nat) (l : List shanten.Decomposer)
    (st : Int × List shanten.Decomposer) :
    (l.foldl (shanten.stepDecomposer n) st).1 ≤ st.1 := by
  induction l generalizing st with
  | nil => simp
  | cons a l ih =>
    simp only [List.foldl_cons]
    exact le_trans (ih _) (stepDecomposer_fst_le n st a)

theorem foldl_step_mem {n : Nat} {l : List shanten.Decomposer}
    {st : Int × List shanten.Decomposer} {x : shanten.Decomposer}
    (hx : x ∈ (l.foldl (shanten.stepDecomposer n) st).2) : x ∈ st.2 ∨ x ∈ l := by
  induction l generalizing st with
  | nil =>
    simp only [List.foldl_nil] at hx
    exact Or.inl hx
  | cons a l ih =>
    simp only [List.foldl_cons] at hx
    rcases ih hx with h | h
    · rcases stepDecomposer_mem h with h | h
      · exact Or.inl h
      · exact Or.inr (by simp [h])
    · exact Or.inr (List.mem_cons_of_mem _ h)

theorem foldl_step_inv {n : Nat} {l : List shanten.Decomposer}
    {st : Int × List shanten.Decomposer} (h : ∀ x ∈ st.2, x.shanten_number n = st.1) :
    ∀ x ∈ (l.foldl (shanten.stepDecomposer n) st).2,
      x.shanten_number n = (l.foldl (shanten.stepDecomposer n) st).1 := by
  induction l generalizing st with
  | nil => simpa using h
  | cons a l ih =>
    simp only [List.foldl_cons]
    exact ih (stepDecomposer_inv a h)

theorem mentsuteState_fst_le (menzen : List Hai) :
    (shanten.mentsuteState menzen).1 ≤ (((menzen.length / 3) * 2 : Nat) : Int) := by
  unfold shanten.mentsuteState
  exact foldl_step_fst_le _ _ _

theorem mentsuteState_inv (menzen : List Hai) :
    ∀ x ∈ (shanten.mentsuteState menzen).2,
      x.shanten_number menzen.length = (shanten.mentsuteState menzen).1 := by
  unfold shanten.mentsuteState
  exact foldl_step_inv (by simp)

theorem mentsuteState_hourakei (menzen : List Hai) :
    ∀ x ∈ (shanten.mentsuteState menzen).2, x.hourakei = shanten.Hourakei.Mentsute := by
  intro x hx
  unfold shanten.mentsuteState at hx
  rcases foldl_step_mem hx with h | h
  · simp at h
  · rcases List.mem_map.1 h with ⟨d, _, rfl⟩
    rfl

theorem calcState_fst_le (menzen : List Hai) (fuuroLen : Nat) :
    (shanten.calcState menzen fuuroLen).1 ≤ (((menzen.length / 3) * 2 : Nat) : Int) := by
  simp only [shanten.calcState]
  split_ifs with hg
  · refine le_trans (stepDecomposer_fst_le _ _ _) ?_
    match menzen with
    | [] => exact mentsuteState_fst_le []
    | h :: t =>
      exact le_trans (stepDecomposer_fst_le _ _ _) (mentsuteState_fst_le (h :: t))
  · exact mentsuteState_fst_le menzen

theorem calcState_inv (menzen : List Hai) (fuuroLen : Nat) :
    ∀ x ∈ (shanten.calcState menzen fuuroLen).2,
      x.shanten_number menzen.length = (shanten.calcState menzen fuuroLen).1 := by
  simp only [shanten.calcState]
  split_ifs with hg
  · apply stepDecomposer_inv
    match menzen with
    | [] => exact mentsuteState_inv []
    | h :: t =>
      exact stepDecomposer_inv _ (mentsuteState_inv (h :: t))
  · exact mentsuteState_inv menzen

theorem not_nodup_dedup_length {α : Type} [DecidableEq α] {l : List α}
    (h : ¬ l.Nodup) : l.dedup.length ≠ l.length := by
  intro he
  apply h
  have hsub : l.dedup.Sublist l := List.dedup_sublist l
  have : l.dedup = l := hsub.eq_of_length he
  rw [← this]
  exact List.nodup_dedup l

/-!  C1: the standard-pattern distance formula. -/

/-- C1: for a standard-pattern (Mentsute) decomposer with no duplicated pair
value, built from a concealed hand of `n` tiles (so its group sizes sum to
`n` and `n % 3 = 2`), `shanten_number` equals
`2*(n/3) - 2*groupCount - taatsuCount - toitsuCount` where
`limit = (n+1)/3`, `taatsuCount = min(limit - 1 - groupCount, partialRuns)`
and `toitsuCount = min(limit - groupCount - taatsuCount, pairs)`, all with
integer division, as the specification states. -/
theorem mentsute_shanten_formula (d : shanten.Decomposer) (n : Nat)
    (hm : d.hourakei = shanten.Hourakei.Mentsute)
    (hnd : d.toitsu_vec.Nodup)
    (hsize : 3 * d.mentsu_vec.length + 2 * d.toitsu_vec.length + 2 * d.taatsu_vec.length
      + d.ukihai_vec.length = n)
    (hmod : n % 3 = 2) :
    d.shanten_number n =
      2 * ((n / 3 : Nat) : Int) - 2 * (d.mentsu_vec.length : Int)
        - min ((((n + 1) / 3 : Nat) : Int) - 1 - (d.mentsu_vec.length : Int))
            (d.taatsu_vec.length : Int)
        - min ((((n + 1) / 3 : Nat) : Int) - (d.mentsu_vec.length : Int)
              - min ((((n + 1) / 3 : Nat) : Int) - 1 - (d.mentsu_vec.length : Int))
                  (d.taatsu_vec.length : Int))
            (d.toitsu_vec.length : Int) := by
  obtain ⟨k, rfl⟩ : ∃ k, n = 3 * k + 2 := ⟨n / 3, by omega⟩
  have hd : d.toitsu_vec.dedup.length = d.toitsu_vec.length := by
    rw [List.dedup_eq_self.2 hnd]
  simp only [shanten.Decomposer.shanten_number, hm]
  rw [if_neg (by simp [hd])]
  have h1 : (3 * k + 2 + 1) / 3 = k + 1 := by omega
  have h2 : (3 * k + 2) / 3 = k := by omega
  rw [h1, h2]
  omega

/-- Witness for C1 at a concrete decomposer of an 8-tile hand: one triplet,
one pair, one partial run, one floating tile gives distance 0. -/
theorem mentsute_shanten_formula_witness :
    (shanten.Decomposer.mk [Mentsu.Koutsu (Hai.Manzu 1)] [⟨Hai.Pinzu 1⟩]
      [⟨Hai.Souzu 1, Hai.Souzu 2⟩] [⟨Hai.Jihai 1⟩] []
      shanten.Hourakei.Mentsute).shanten_number 8 = 0 := by
  rw [mentsute_shanten_formula _ 8 rfl (by decide) (by decide) (by decide)]
  decide

/-!  C5: the pattern guards of the orchestrator. -/

/-- C5: the seven-pairs and thirteen-orphans evaluators contribute only when
the concealed tile count is exactly 14 and there are no open groups; for any
other hand shape `calculate` returns exactly the standard-pattern fold, and
every decomposer in the minimal set carries the Mentsute tag. -/
theorem pattern_guard_spec (tehai : Tehai) (menzen : List Hai)
    (hok : tehai.menzen = .ok menzen)
    (hshape : ¬ (menzen.length = 14 ∧ tehai.fuuro.length = 0)) :
    shanten.calculate tehai = .ok (shanten.mentsuteState menzen)
    ∧ ∀ d ∈ (shanten.mentsuteState menzen).2, d.hourakei = shanten.Hourakei.Mentsute := by
  constructor
  · rw [calculate_ok hok]
    have : shanten.calcState menzen tehai.fuuro.length = shanten.mentsuteState menzen := by
      simp only [shanten.calcState]
      rw [if_neg hshape, if_neg hshape]
    rw [this]
  · exact mentsuteState_hourakei menzen

/-- Witness for C5 at a 2-tile hand. -/
theorem pattern_guard_spec_witness :
    shanten.calculate (Tehai.new (.ok [Hai.Manzu 1, Hai.Manzu 1]) []) =
      .ok (shanten.mentsuteState [Hai.Manzu 1, Hai.Manzu 1]) :=
  (pattern_guard_spec _ _ rfl (by decide)).1

/-!  C6: duplicated pair values are rejected. -/

/-- C6: a Mentsute decomposer whose pair list repeats a tile value gets the
sentinel distance 13 from `shanten_number`, and — for any hand within the
specification's size range (concealed count at most 20, which keeps the
initial minimum `(len/3)*2` at most 12, strictly below the sentinel) — no
such decomposer ever appears in the minimal set returned by `calculate`. -/
theorem duplicate_toitsu_rejected_spec :
    (∀ (d : shanten.Decomposer) (n : Nat), d.hourakei = shanten.Hourakei.Mentsute →
      ¬ d.toitsu_vec.Nodup → d.shanten_number n = 13)
    ∧ ∀ (tehai : Tehai) (menzen : List Hai) (s : Int) (ds : List shanten.Decomposer),
        tehai.menzen = .ok menzen → menzen.length ≤ 20 →
        shanten.calculate tehai = .ok (s, ds) →
        ∀ d ∈ ds, d.hourakei = shanten.Hourakei.Mentsute → d.toitsu_vec.Nodup := by
  constructor
  · intro d n hm hnd
    simp only [shanten.Decomposer.shanten_number, hm]
    rw [if_pos (not_nodup_dedup_length hnd)]
  · intro tehai menzen s ds hok hlen hcalc d hd hm
    by_contra hnd
    rw [calculate_ok hok] at hcalc
    have heq : shanten.calcState menzen tehai.fuuro.length = (s, ds) := by
      injection hcalc
    have hmem : d ∈ (shanten.calcState menzen tehai.fuuro.length).2 := by
      rw [heq]
      exact hd
    have h13 : d.shanten_number menzen.length
        = (shanten.calcState menzen tehai.fuuro.length).1 :=
      calcState_inv _ _ d hmem
    have hle := calcState_fst_le menzen tehai.fuuro.length
    have hdup : d.shanten_number menzen.length = 13 := by
      simp only [shanten.Decomposer.shanten_number, hm]
      rw [if_pos (not_nodup_dedup_length hnd)]
    have hsmall : ((menzen.length / 3) * 2 : Nat) ≤ 12 := by omega
    rw [hdup] at h13
    omega

/-- Witness for C6: a decomposer with the pair `1m` twice scores 13 at a
14-tile hand size, and on the concrete 2-tile hand `1m2m` the minimal
decomposers returned by `calculate` all have duplicate-free pair lists. -/
theorem duplicate_toitsu_rejected_spec_witness :
    (shanten.Decomposer.mk [] [⟨Hai.Manzu 1⟩, ⟨Hai.Manzu 1⟩] [] [] []
      shanten.Hourakei.Mentsute).shanten_number 14 = 13
    ∧ (shanten.Decomposer.mk [] [] [⟨Hai.Manzu 1, Hai.Manzu 2⟩] [] []
        shanten.Hourakei.Mentsute).toitsu_vec.Nodup := by
  constructor
  · exact duplicate_toitsu_rejected_spec.1 _ 14 rfl (by decide)
  · exact duplicate_toitsu_rejected_spec.2
      (Tehai.new (.ok [Hai.Manzu 1, Hai.Manzu 2]) []) [Hai.Manzu 1, Hai.Manzu 2] 0
      [⟨[], [], [⟨Hai.Manzu 1, Hai.Manzu 2⟩], [], [], shanten.Hourakei.Mentsute⟩,
       ⟨[], [], [], [⟨Hai.Manzu 1⟩, ⟨Hai.Manzu 2⟩], [], shanten.Hourakei.Mentsute⟩]
      rfl (by decide) (by decide)
      ⟨[], [], [⟨Hai.Manzu 1, Hai.Manzu 2⟩], [], [], shanten.Hourakei.Mentsute⟩
      (by decide) rfl

/-!  C8: input validation. -/

theorem check_hai_in_range_eq_all (l : List Hai) :
    input.check_hai_in_range l =
      l.all (fun h => match h with
        | .Jihai n => decide (1 ≤ n ∧ n ≤ 7)
        | _ => decide (1 ≤ h.rank ∧ h.rank ≤ 9)) := by
  induction l with
  | nil => rfl
  | cons h t ih =>
    cases h with
    | Manzu n =>
      simp only [input.check_hai_in_range, List.all_cons, ih]
      by_cases hn : n < 1 ∨ 9 < n
      · rw [if_pos hn]
        have : ¬ (1 ≤ n ∧ n ≤ 9) := by omega
        simp [Hai.rank, this]
      · rw [if_neg hn]
        have : 1 ≤ n ∧ n ≤ 9 := by omega
        simp [Hai.rank, this]
    | Pinzu n =>
      simp only [input.check_hai_in_range, List.all_cons, ih]
      by_cases hn : n < 1 ∨ 9 < n
      · rw [if_pos hn]
        have : ¬ (1 ≤ n ∧ n ≤ 9) := by omega
        simp [Hai.rank, this]
      · rw [if_neg hn]
        have : 1 ≤ n ∧ n ≤ 9 := by omega
        simp [Hai.rank, this]
    | Souzu n =>
      simp only [input.check_hai_in_range, List.all_cons, ih]
      by_cases hn : n < 1 ∨ 9 < n
      · rw [if_pos hn]
        have : ¬ (1 ≤ n ∧ n ≤ 9) := by omega
        simp [Hai.rank, this]
      · rw [if_neg hn]
        have : 1 ≤ n ∧ n ≤ 9 := by omega
        simp [Hai.rank, this]
    | Jihai n =>
      simp only [input.check_hai_in_range, List.all_cons, ih]
      by_cases hn : n < 1 ∨ 7 < n
      · rw [if_pos hn]
        have : ¬ (1 ≤ n ∧ n ≤ 7) := by omega
        simp [this]
      · rw [if_neg hn]
        have : 1 ≤ n ∧ n ≤ 7 := by omega
        simp [this]

theorem check_juntsu_mem {a b c x y z : Nat}
    (h : input.check_juntsu a b c = some (x, y, z)) :
    (x = a ∨ x = b ∨ x = c) ∧ (y = a ∨ y = b ∨ y = c) ∧ (z = a ∨ z = b ∨ z = c) := by
  unfold input.check_juntsu at h
  by_cases q1 : a > b <;> by_cases q2 : b > c <;> by_cases q3 : a > c
  all_goals try (exfalso; omega)
  all_goals try simp only [q1, q2, q3, if_true, if_false, ite_true, ite_false] at h
  all_goals (
    split_ifs at h <;>
    simp only [Option.some.injEq, Prod.mk.injEq, reduceCtorEq] at h <;>
    obtain ⟨rfl, rfl, rfl⟩ := h <;>
    tauto)

theorem check_mentsu_range {l : List Hai} {m : Mentsu}
    (h : input.check_mentsu l = some m) :
    input.check_hai_in_range (machi.mentsuToList m) = true := by
  unfold input.check_mentsu at h
  split_ifs at h with hr
  have hrt : input.check_hai_in_range l = true := by
    revert hr
    cases input.check_hai_in_range l <;> simp
  split at h
  · next a b c d =>
    split_ifs at h with he
    · obtain ⟨rfl, rfl, rfl⟩ := he
      injection h with h
      subst h
      rw [check_hai_in_range_eq_all] at hrt ⊢
      simp_all [machi.mentsuToList]
  · next a b c =>
    rw [check_hai_in_range_eq_all] at hrt
    simp only [List.all_cons, List.all_nil, Bool.and_eq_true, Bool.and_true] at hrt
    obtain ⟨ha, hb, hc⟩ := hrt
    split_ifs at h with he
    · obtain ⟨rfl, rfl⟩ := he
      injection h with h
      subst h
      rw [check_hai_in_range_eq_all]
      simp_all [machi.mentsuToList]
    · split at h
      · next x y z' =>
        split at h
        · next x2 y2 z2 hj =>
          injection h with h
          subst h
          obtain ⟨hx, hy, hz⟩ := check_juntsu_mem hj
          rw [check_hai_in_range_eq_all]
          simp only [machi.mentsuToList, List.all_cons, List.all_nil, Bool.and_eq_true,
            Bool.and_true, Hai.rank, decide_eq_true_eq] at ha hb hc ⊢
          exact ⟨by rcases hx with rfl | rfl | rfl <;> omega,
            by rcases hy with rfl | rfl | rfl <;> omega,
            by rcases hz with rfl | rfl | rfl <;> omega⟩
        · simp at h
      · next x y z' =>
        split at h
        · next x2 y2 z2 hj =>
          injection h with h
          subst h
          obtain ⟨hx, hy, hz⟩ := check_juntsu_mem hj
          rw [check_hai_in_range_eq_all]
          simp only [machi.mentsuToList, List.all_cons, List.all_nil, Bool.and_eq_true,
            Bool.and_true, Hai.rank, decide_eq_true_eq] at ha hb hc ⊢
          exact ⟨by rcases hx with rfl | rfl | rfl <;> omega,
            by rcases hy with rfl | rfl | rfl <;> omega,
            by rcases hz with rfl | rfl | rfl <;> omega⟩
        · simp at h
      · next x y z' =>
        split at h
        · next x2 y2 z2 hj =>
          injection h with h
          subst h
          obtain ⟨hx, hy, hz⟩ := check_juntsu_mem hj
          rw [check_hai_in_range_eq_all]
          simp only [machi.mentsuToList, List.all_cons, List.all_nil, Bool.and_eq_true,
            Bool.and_true, Hai.rank, decide_eq_true_eq] at ha hb hc ⊢
          exact ⟨by rcases hx with rfl | rfl | rfl <;> omega,
            by rcases hy with rfl | rfl | rfl <;> omega,
            by rcases hz with rfl | rfl | rfl <;> omega⟩
        · simp at h
      · simp at h
  · simp at h

theorem parseLoop_shape :
    ∀ (cs : List Char) (idx : Nat) (st : input.ParseState),
      (∀ m ∈ st.fuuro, input.check_hai_in_range (machi.mentsuToList m) = true) →
      (∀ v : List Hai, (input.parseLoop cs idx st).menzen = .ok v → v.length % 3 = 2)
      ∧ ∀ m ∈ (input.parseLoop cs idx st).fuuro,
          input.check_hai_in_range (machi.mentsuToList m) = true := by
  intro cs
  induction cs with
  | nil =>
    intro idx st hf
    constructor
    · intro v hv
      simp only [input.parseLoop, Tehai.new] at hv
      split_ifs at hv with hmod
      simp only [Except.ok.injEq] at hv
      subst hv
      rw [(List.perm_insertionSort (fun a b => haiLe a b = true) st.menzen).length_eq]
      omega
    · intro m hm
      simp only [input.parseLoop, Tehai.new] at hm
      split_ifs at hm <;> exact hf m hm
  | cons ch rest ih =>
    intro idx st hf
    have herr : ∀ (e : String),
        (∀ v : List Hai, (Tehai.new (.error e) st.fuuro).menzen = .ok v → v.length % 3 = 2)
        ∧ ∀ m ∈ (Tehai.new (.error e) st.fuuro).fuuro,
            input.check_hai_in_range (machi.mentsuToList m) = true := by
      intro e
      constructor
      · intro v hv
        simp [Tehai.new] at hv
      · intro m hm
        exact hf m hm
    by_cases h1 : ch = 'm' ∨ ch = 'p' ∨ ch = 's' ∨ ch = 'z'
    · simp only [input.parseLoop, if_pos h1]
      by_cases h2 : st.on_mentsu
      · rw [if_pos h2]
        cases hpv : input.push_into_hai_vec ch idx st.hai_stash st.menzen_stash with
        | error e => exact herr e
        | ok out => exact ih _ _ hf
      · rw [if_neg h2]
        cases hpv : input.push_into_hai_vec ch idx st.hai_stash st.menzen with
        | error e => exact herr e
        | ok out => exact ih _ _ hf
    · by_cases h2 : '1' ≤ ch ∧ ch ≤ '9'
      · simp only [input.parseLoop, if_neg h1, if_pos h2]
        exact ih _ _ hf
      · by_cases h3 : ch = '['
        · simp only [input.parseLoop, if_neg h1, if_neg h2, if_pos h3]
          by_cases h4 : st.on_mentsu
          · rw [if_pos h4]
            exact herr _
          · rw [if_neg h4]
            by_cases h5 : 0 < st.hai_stash.length
            · rw [if_pos h5]
              exact herr _
            · rw [if_neg h5]
              exact ih _ _ hf
        · by_cases h4 : ch = ']'
          · simp only [input.parseLoop, if_neg h1, if_neg h2, if_neg h3, if_pos h4]
            by_cases h5 : st.on_mentsu = false
            · rw [if_pos h5]
              exact herr _
            · rw [if_neg h5]
              by_cases h6 : 0 < st.hai_stash.length
              · rw [if_pos h6]
                exact herr _
              · rw [if_neg h6]
                cases hcm : input.check_mentsu st.menzen_stash with
                | some meld =>
                  refine ih _ _ ?_
                  intro m hm
                  simp only [List.mem_append, List.mem_singleton] at hm
                  rcases hm with hm | rfl
                  · exact hf m hm
                  · exact check_mentsu_range hcm
                | none => exact herr _
          · by_cases h5 : ch = ' '
            · simp only [input.parseLoop, if_neg h1, if_neg h2, if_neg h3, if_neg h4, if_pos h5]
              exact ih _ _ hf
            · simp only [input.parseLoop, if_neg h1, if_neg h2, if_neg h3, if_neg h4, if_neg h5]
              exact herr _

/-- C8 counterexample: the input `8z8z` has an out-of-range honor rank (8)
among its concealed tiles, yet `parse` accepts it (the parser range-checks
only meld tiles through `check_mentsu`, never the concealed tiles) and the
decomposition search runs to completion on it, returning distance −1 rather
than an error. -/
theorem out_of_range_honor_reaches_search :
    input.check_hai_in_range [Hai.Jihai 8, Hai.Jihai 8] = false
    ∧ (input.parse "8z8z").menzen = .ok [Hai.Jihai 8, Hai.Jihai 8]
    ∧ shanten.calculate (input.parse "8z8z")
        = .ok (-1, [⟨[], [⟨Hai.Jihai 8⟩], [], [], [], shanten.Hourakei.Mentsute⟩]) := by
  refine ⟨by decide, by decide, by decide⟩

/-- C8 (amended): for every input string, if `parse` accepts the hand then
the concealed tile count is of the form 3k+2 (shape violations are rejected
before any search runs), and every tile of every declared meld is in range
(melds pass through `check_mentsu`); out-of-range ranks among the concealed
tiles themselves are not rejected (see the counterexample `8z8z`). -/
theorem parse_shape_guarantees (s : String) :
    (∀ v : List Hai, (input.parse s).menzen = .ok v → v.length % 3 = 2)
    ∧ ∀ m ∈ (input.parse s).fuuro,
        input.check_hai_in_range (machi.mentsuToList m) = true :=
  parseLoop_shape s.data 0 ⟨[], [], [], [], false⟩ (by intro m hm; simp at hm)

/-- Witness for the amended C8 at the input `11m[111z]`: two concealed
tiles (2 % 3 = 2) and one declared triplet of in-range honors. -/
theorem parse_shape_guarantees_witness :
    ([Hai.Manzu 1, Hai.Manzu 1] : List Hai).length % 3 = 2
    ∧ input.check_hai_in_range (machi.mentsuToList (Mentsu.Koutsu (Hai.Jihai 1))) = true := by
  constructor
  · exact (parse_shape_guarantees "11m[111z]").1 [Hai.Manzu 1, Hai.Manzu 1] (by decide)
  · exact (parse_shape_guarantees "11m[111z]").2 (Mentsu.Koutsu (Hai.Jihai 1)) (by decide)

/-!  C2: the seven-pairs evaluator.  Counting lemmas about `removeVal`,
`pairValueCount` and `loneValueCount`, then the invariant of the scan. -/

theorem mem_removeVal {m : List Hai} {v u : Hai} :
    u ∈ removeVal m v ↔ u ∈ m ∧ u ≠ v := by
  simp [removeVal]

theorem count_removeVal (m : List Hai) (v u : Hai) :
    (removeVal m v).count u = if u = v then 0 else m.count u := by
  by_cases huv : u = v
  · subst huv
    rw [if_pos rfl, List.count_eq_zero]
    intro hmem
    exact (mem_removeVal.1 hmem).2 rfl
  · rw [if_neg huv]
    induction m with
    | nil => simp [removeVal]
    | cons h t ih =>
      simp only [removeVal, List.filter_cons] at ih ⊢
      by_cases hhv : h = v
      · have hb : (!(h == v)) = false := by simp [hhv]
        rw [hb, if_neg (by simp)]
        rw [ih]
        have : ¬ h = u := fun e => huv (e.symm.trans hhv)
        simp [List.count_cons, this]
      · have hb : (!(h == v)) = true := by simp [hhv]
        rw [hb, if_pos rfl]
        rw [List.count_cons, List.count_cons, ih]

theorem toFinset_removeVal (m : List Hai) (v : Hai) :
    (removeVal m v).toFinset = m.toFinset.erase v := by
  ext u
  simp only [List.mem_toFinset, mem_removeVal, Finset.mem_erase]
  tauto

theorem removeVal_cons_self (m : List Hai) (v : Hai) :
    removeVal (v :: m) v = removeVal m v := by
  simp [removeVal, List.filter_cons]

theorem removeVal_eq_of_not_mem {m : List Hai} {v : Hai} (h : v ∉ m) :
    removeVal m v = m := by
  unfold removeVal
  rw [List.filter_eq_self]
  intro a ha
  have hne : a ≠ v := fun e => h (e ▸ ha)
  simp [hne]

theorem pairValueCount_nil : pairValueCount [] = 0 := by
  simp [pairValueCount]

theorem loneValueCount_nil : loneValueCount [] = 0 := by
  simp [loneValueCount]

theorem pairValueCount_singleton (v : Hai) : pairValueCount [v] = 0 := by
  simp [pairValueCount, Finset.filter_singleton, List.count_cons]

theorem loneValueCount_singleton (v : Hai) : loneValueCount [v] = 1 := by
  simp [loneValueCount, Finset.filter_singleton, List.count_cons]

theorem counts_cons_not_mem {v : Hai} {m : List Hai} (hv : v ∉ m) :
    loneValueCount (v :: m) = loneValueCount m + 1
    ∧ pairValueCount (v :: m) = pairValueCount m := by
  have hc0 : m.count v = 0 := List.count_eq_zero.2 hv
  have hcount : ∀ u ∈ m.toFinset, (v :: m).count u = m.count u := by
    intro u hu
    rw [List.count_cons]
    have : ¬ v = u := by
      intro e
      exact hv (e ▸ List.mem_toFinset.1 hu)
    simp [this]
  have hfin : (v :: m).toFinset = insert v m.toFinset := by
    simp
  constructor
  · unfold loneValueCount
    rw [hfin, Finset.filter_insert]
    rw [if_pos (by simp [List.count_cons, hc0])]
    rw [Finset.card_insert_of_not_mem]
    · congr 2
      apply Finset.filter_congr
      intro u hu
      simp [hcount u hu]
    · intro hmem
      exact hv (List.mem_toFinset.1 (Finset.mem_of_mem_filter v hmem))
  · unfold pairValueCount
    rw [hfin, Finset.filter_insert]
    rw [if_neg (by simp [List.count_cons, hc0])]
    congr 1
    apply Finset.filter_congr
    intro u hu
    simp [hcount u hu]

theorem counts_dup_remove {v : Hai} {m : List Hai} (hv : 2 ≤ m.count v) :
    pairValueCount m = pairValueCount (removeVal m v) + 1
    ∧ loneValueCount m = loneValueCount (removeVal m v) := by
  have hvm : v ∈ m := List.count_pos_iff_mem.1 (by omega)
  have hvfin : v ∈ m.toFinset := List.mem_toFinset.2 hvm
  have hcount : ∀ u ∈ m.toFinset.erase v, (removeVal m v).count u = m.count u := by
    intro u hu
    rw [count_removeVal]
    rw [if_neg (Finset.ne_of_mem_erase hu)]
  constructor
  · unfold pairValueCount
    rw [toFinset_removeVal]
    have hvfilt : v ∈ m.toFinset.filter (fun u => 2 ≤ m.count u) :=
      Finset.mem_filter.2 ⟨hvfin, hv⟩
    rw [← Finset.card_erase_add_one hvfilt]
    congr 1
    rw [← Finset.filter_erase]
    congr 1
    apply Finset.filter_congr
    intro u hu
    simp [hcount u hu]
  · unfold loneValueCount
    rw [toFinset_removeVal]
    have hvnot : v ∉ m.toFinset.filter (fun u => m.count u = 1) := by
      intro hmem
      have := (Finset.mem_filter.1 hmem).2
      omega
    rw [← Finset.erase_eq_of_not_mem hvnot, ← Finset.filter_erase]
    congr 1
    apply Finset.filter_congr
    intro u hu
    simp [hcount u hu]

theorem removeVal_length (m : List Hai) (v : Hai) :
    (removeVal m v).length + m.count v = m.length := by
  induction m with
  | nil => simp [removeVal]
  | cons h t ih =>
    simp only [removeVal, List.filter_cons] at ih ⊢
    by_cases hh : h = v
    · have hb : (!(h == v)) = false := by simp [hh]
      rw [hb, if_neg (by simp)]
      have hcnt : (h :: t).count v = t.count v + 1 := by
        simp [List.count_cons, hh]
      rw [hcnt]
      rw [List.length_cons]
      omega
    · have hb : (!(h == v)) = true := by simp [hh]
      rw [hb, if_pos rfl]
      have hcnt : (h :: t).count v = t.count v := by
        simp [List.count_cons, hh]
      rw [hcnt, List.length_cons, List.length_cons]
      omega

/-- The multiset of tiles still to be classified by the seven-pairs scan in
state `(last, used, t)`: the whole remainder plus the pending `last` when it
is still unused; when `last` is already paired its residual copies in `t`
are excess and the pending multiset excludes them. -/
def chiitoiState (last : Hai) (used : Bool) (t : List Hai) : List Hai :=
  if used then removeVal t last else last :: t

theorem chiitoiScan_hourakei :
    ∀ (t : List Hai) (v : Hai) (used : Bool) (d : shanten.Decomposer),
      (shanten.chiitoiScan v used t d).hourakei = d.hourakei := by
  intro t
  induction t with
  | nil =>
    intro v used d
    cases used <;>
      simp [shanten.chiitoiScan, shanten.Decomposer.chiitoutsu]
  | cons c rest ih =>
    intro v used d
    by_cases hc : c = v <;> cases used <;>
      simp [shanten.chiitoiScan, hc, ih, shanten.Decomposer.toitsu,
        shanten.Decomposer.ukihai, shanten.Decomposer.chiitoutsu]

theorem chiitoiScan_counts :
    ∀ (t : List Hai) (v : Hai) (used : Bool) (d : shanten.Decomposer),
      List.Pairwise (fun a b => haiLe a b = true) (v :: t) →
      (shanten.chiitoiScan v used t d).toitsu_vec.length
        = d.toitsu_vec.length + pairValueCount (chiitoiState v used t)
      ∧ (shanten.chiitoiScan v used t d).chiitoutsu_kokushimusou_valid_tile_vec.length
        = d.chiitoutsu_kokushimusou_valid_tile_vec.length
          + loneValueCount (chiitoiState v used t)
      ∧ (shanten.chiitoiScan v used t d).ukihai_vec.length
          + 2 * pairValueCount (chiitoiState v used t)
          + loneValueCount (chiitoiState v used t)
        = d.ukihai_vec.length + (if used then t.count v else 0)
          + (chiitoiState v used t).length := by
  intro t
  induction t with
  | nil =>
    intro v used d _
    cases used with
    | false =>
      simp [shanten.chiitoiScan, chiitoiState, shanten.Decomposer.chiitoutsu,
        pairValueCount_singleton, loneValueCount_singleton]
    | true =>
      simp [shanten.chiitoiScan, chiitoiState, removeVal, pairValueCount_nil,
        loneValueCount_nil]
  | cons c rest ih =>
    intro v used d hsorted
    rcases List.pairwise_cons.1 hsorted with ⟨hvall, hs_tail⟩
    have hs_vrest : List.Pairwise (fun a b => haiLe a b = true) (v :: rest) := by
      refine List.pairwise_cons.2 ⟨fun x hx => hvall x (List.mem_cons_of_mem _ hx), ?_⟩
      exact (List.pairwise_cons.1 hs_tail).2
    by_cases hc : c = v
    · subst hc
      cases used with
      | false =>
        obtain ⟨IH1, IH2, IH3⟩ := ih c true (d.toitsu ⟨c⟩) hs_vrest
        have hdup : 2 ≤ (c :: c :: rest).count c := by
          simp [List.count_cons]
        obtain ⟨hrel1, hrel2⟩ := counts_dup_remove hdup
        rw [removeVal_cons_self, removeVal_cons_self] at hrel1 hrel2
        have hlen := removeVal_length rest c
        refine ⟨?_, ?_, ?_⟩ <;>
          simp only [shanten.chiitoiScan, chiitoiState, shanten.Decomposer.toitsu,
            if_pos rfl, if_true, if_false, ite_true, ite_false, Bool.false_eq_true,
            Bool.true_eq_false, List.length_append, List.length_cons, List.length_nil]
            at IH1 IH2 IH3 ⊢ <;>
          omega
      | true =>
        obtain ⟨IH1, IH2, IH3⟩ := ih c true (d.ukihai ⟨c⟩) hs_vrest
        have hcc : (c :: rest).count c = rest.count c + 1 := by
          simp [List.count_cons]
        refine ⟨?_, ?_, ?_⟩ <;>
          simp only [shanten.chiitoiScan, chiitoiState, shanten.Decomposer.ukihai,
            removeVal_cons_self, if_pos rfl, if_true, if_false, ite_true, ite_false,
            Bool.false_eq_true, Bool.true_eq_false, List.length_append, List.length_cons,
            List.length_nil] at IH1 IH2 IH3 ⊢ <;>
          omega
    · have hvnot : v ∉ c :: rest := by
        intro hmem
        rcases List.mem_cons.1 hmem with he | hmem2
        · exact hc he.symm
        · have h1 : haiLe c v = true := (List.pairwise_cons.1 hs_tail).1 v hmem2
          have h2 : haiLe v c = true := hvall c (by simp)
          exact hc (haiLe_antisymm h1 h2)
      cases used with
      | false =>
        obtain ⟨IH1, IH2, IH3⟩ := ih c false (d.chiitoutsu v) hs_tail
        obtain ⟨hrel1, hrel2⟩ := counts_cons_not_mem hvnot
        refine ⟨?_, ?_, ?_⟩ <;>
          simp only [shanten.chiitoiScan, chiitoiState, shanten.Decomposer.chiitoutsu,
            if_neg hc, if_true, if_false, ite_true, ite_false, Bool.false_eq_true,
            Bool.true_eq_false, List.length_append, List.length_cons, List.length_nil]
            at IH1 IH2 IH3 ⊢ <;>
          omega
      | true =>
        obtain ⟨IH1, IH2, IH3⟩ := ih c false d hs_tail
        have hrm : removeVal (c :: rest) v = c :: rest := removeVal_eq_of_not_mem hvnot
        have hc0 : (c :: rest).count v = 0 := List.count_eq_zero.2 hvnot
        refine ⟨?_, ?_, ?_⟩ <;>
          simp only [shanten.chiitoiScan, chiitoiState, if_neg hc, hrm, hc0, if_true,
            if_false, ite_true, ite_false, Bool.false_eq_true, Bool.true_eq_false,
            List.length_cons] at IH1 IH2 IH3 ⊢ <;>
          omega

/-- C2: on a sorted 14-tile concealed hand, the seven-pairs evaluator of
`shanten::calculate` counts one pair per tile value occurring at least
twice, one valid lone tile per singleton value, and the remaining duplicates
as floating tiles, and its distance is
`13 - 2*pairCount - min(loneTileCount, 7 - pairCount)`; in particular a hand
of 7 distinct pairs (every value occurring exactly twice) gets distance −1
from this evaluator, whatever the standard evaluator computes. -/
theorem chiitoitsu_evaluator_spec (menzen : List Hai)
    (hsorted : List.Pairwise (fun a b => haiLe a b = true) menzen)
    (hlen : menzen.length = 14) :
    ((shanten.chiitoiDecomposer menzen).toitsu_vec.length = pairValueCount menzen
     ∧ (shanten.chiitoiDecomposer menzen).chiitoutsu_kokushimusou_valid_tile_vec.length
         = loneValueCount menzen
     ∧ (shanten.chiitoiDecomposer menzen).ukihai_vec.length + 2 * pairValueCount menzen
         + loneValueCount menzen = menzen.length
     ∧ (shanten.chiitoiDecomposer menzen).shanten_number menzen.length
         = 13 - 2 * (pairValueCount menzen : Int)
           - min (loneValueCount menzen : Int) (7 - (pairValueCount menzen : Int)))
    ∧ ((∀ v ∈ menzen, menzen.count v = 2) →
        (shanten.chiitoiDecomposer menzen).shanten_number menzen.length = -1) := by
  cases hm : menzen with
  | nil =>
    subst hm
    simp at hlen
  | cons h t =>
    subst hm
    have hdec : shanten.chiitoiDecomposer (h :: t)
        = shanten.chiitoiScan h false t
            ⟨[], [], [], [], [], shanten.Hourakei.Chiitoitsu⟩ := rfl
    obtain ⟨c1, c2, c3⟩ := chiitoiScan_counts t h false
      ⟨[], [], [], [], [], shanten.Hourakei.Chiitoitsu⟩ hsorted
    have hstate : chiitoiState h false t = h :: t := by
      simp [chiitoiState]
    rw [hstate] at c1 c2 c3
    simp only [List.length_nil, Nat.zero_add, Bool.false_eq_true, if_false, ite_false]
      at c1 c2 c3
    have hhour : (shanten.chiitoiScan h false t
        (⟨[], [], [], [], [], shanten.Hourakei.Chiitoitsu⟩ : shanten.Decomposer)).hourakei
        = shanten.Hourakei.Chiitoitsu := by
      rw [chiitoiScan_hourakei]
    rw [hdec]
    have hple : pairValueCount (h :: t) ≤ 7 := by omega
    have hformula :
        (shanten.chiitoiScan h false t
            (⟨[], [], [], [], [], shanten.Hourakei.Chiitoitsu⟩ :
              shanten.Decomposer)).shanten_number (h :: t).length
          = 13 - 2 * (pairValueCount (h :: t) : Int)
            - min (loneValueCount (h :: t) : Int) (7 - (pairValueCount (h :: t) : Int)) := by
      simp only [shanten.Decomposer.shanten_number, hhour, c1, c2]
      omega
    refine ⟨⟨by omega, by omega, by omega, hformula⟩, ?_⟩
    intro hall
    rw [hformula]
    have hl0 : loneValueCount (h :: t) = 0 := by
      unfold loneValueCount
      rw [Finset.card_eq_zero, Finset.filter_eq_empty_iff]
      intro u hu
      have := hall u (List.mem_toFinset.1 hu)
      omega
    have hp : pairValueCount (h :: t) = (h :: t).toFinset.card := by
      unfold pairValueCount
      congr 1
      apply Finset.filter_true_of_mem
      intro u hu
      have := hall u (List.mem_toFinset.1 hu)
      omega
    have hsum : ∑ a ∈ (h :: t).toFinset, (h :: t).count a = (h :: t).length := by
      simpa using Multiset.toFinset_sum_count_eq ((h :: t : List Hai) : Multiset Hai)
    have hsum2 : ∑ a ∈ (h :: t).toFinset, (h :: t).count a
        = 2 * (h :: t).toFinset.card := by
      rw [Finset.sum_congr rfl (fun u hu => hall u (List.mem_toFinset.1 hu))]
      simp [Finset.sum_const, mul_comm]
    have hcard : (h :: t).toFinset.card = 7 := by omega
    rw [hl0, hp, hcard]
    decide

/-- Witness for C2 at the concrete 14-tile hand of seven distinct pairs
`112233m1122p11s11z`: the seven-pairs evaluator gives distance −1. -/
theorem chiitoitsu_evaluator_spec_witness :
    (shanten.chiitoiDecomposer
        [Hai.Manzu 1, Hai.Manzu 1, Hai.Manzu 2, Hai.Manzu 2, Hai.Manzu 3, Hai.Manzu 3,
         Hai.Pinzu 1, Hai.Pinzu 1, Hai.Pinzu 2, Hai.Pinzu 2, Hai.Souzu 1, Hai.Souzu 1,
         Hai.Jihai 1, Hai.Jihai 1]).shanten_number 14 = -1 := by
  have h := (chiitoitsu_evaluator_spec
    [Hai.Manzu 1, Hai.Manzu 1, Hai.Manzu 2, Hai.Manzu 2, Hai.Manzu 3, Hai.Manzu 3,
     Hai.Pinzu 1, Hai.Pinzu 1, Hai.Pinzu 2, Hai.Pinzu 2, Hai.Souzu 1, Hai.Souzu 1,
     Hai.Jihai 1, Hai.Jihai 1] (by decide) (by decide)).2 (by decide)
  simpa using h

/-!  C3: the thirteen-orphans evaluator.  Counting lemmas for `presentCount`
and `dupFlag`, then the invariant of the merge walk. -/

theorem haiLe_trans {a b c : Hai} (h1 : haiLe a b = true) (h2 : haiLe b c = true) :
    haiLe a c = true := by
  simp only [haiLe, Bool.or_eq_true, Bool.and_eq_true, decide_eq_true_eq, beq_iff_eq]
    at h1 h2 ⊢
  omega

theorem haiLt_of_lt_of_le {a b c : Hai} (h1 : haiLt a b = true) (h2 : haiLe b c = true) :
    haiLt a c = true := by
  simp only [haiLt, haiLe, Bool.or_eq_true, Bool.and_eq_true, decide_eq_true_eq, beq_iff_eq]
    at h1 h2 ⊢
  omega

theorem ne_of_haiLt {a b : Hai} (h : haiLt a b = true) : a ≠ b :=
  (haiLt_iff_le_ne.1 h).2

theorem haiLt_asymm {a b : Hai} (h : haiLt a b = true) : haiLt b a = false :=
  not_haiLt_of_haiLe (haiLt_iff_le_ne.1 h).1

theorem eq_of_not_haiLt {a b : Hai} (h1 : haiLt a b = false) (h2 : haiLt b a = false) :
    a = b := by
  by_contra hne
  rcases haiLe_total a b with hle | hle
  · rw [haiLt_iff_le_ne.2 ⟨hle, hne⟩] at h1
    simp at h1
  · rw [haiLt_iff_le_ne.2 ⟨hle, fun e => hne e.symm⟩] at h2
    simp at h2

theorem presentCount_nil_left (m : List Hai) : presentCount [] m = 0 := rfl

theorem presentCount_nil_right (yao : List Hai) : presentCount yao [] = 0 := by
  simp [presentCount]

theorem dupFlag_nil_left (m : List Hai) : dupFlag [] m = false := rfl

theorem dupFlag_nil_right (yao : List Hai) : dupFlag yao [] = false := by
  simp [dupFlag]

theorem presentCount_cons_mem {l : Hai} {ys m : List Hai} (h : l ∈ m) :
    presentCount (l :: ys) m = presentCount ys m + 1 := by
  simp only [presentCount, List.filter_cons]
  rw [if_pos (by simpa using h)]
  simp [Nat.add_comm]

theorem presentCount_cons_not_mem {l : Hai} {ys m : List Hai} (h : l ∉ m) :
    presentCount (l :: ys) m = presentCount ys m := by
  simp only [presentCount, List.filter_cons]
  rw [if_neg (by simpa using h)]

theorem presentCount_congr {ys m1 m2 : List Hai}
    (h : ∀ y ∈ ys, y ∈ m1 ↔ y ∈ m2) : presentCount ys m1 = presentCount ys m2 := by
  unfold presentCount
  congr 1
  apply List.filter_congr
  intro y hy
  rw [Bool.eq_iff_iff]
  simpa using h y hy

theorem dupFlag_cons (l : Hai) (ys m : List Hai) :
    dupFlag (l :: ys) m = (decide (2 ≤ m.count l) || dupFlag ys m) := by
  simp [dupFlag]

theorem dupFlag_congr {ys m1 m2 : List Hai}
    (h : ∀ y ∈ ys, m1.count y = m2.count y) : dupFlag ys m1 = dupFlag ys m2 := by
  unfold dupFlag
  rw [Bool.eq_iff_iff]
  simp only [List.any_eq_true, decide_eq_true_eq]
  constructor <;> rintro ⟨y, hy, hc⟩ <;> refine ⟨y, hy, ?_⟩
  · rw [← h y hy]
    exact hc
  · rw [h y hy]
    exact hc

theorem kokushiMerge_cons (fuel : Nat) (l r : Hai) (ys ms : List Hai)
    (changed b : Bool) (d : shanten.Decomposer) :
    shanten.kokushiMerge (fuel + 1) (l :: ys) (r :: ms) changed b d =
      if haiLt l r then shanten.kokushiMerge fuel ys (r :: ms) true b d
      else if haiLt r l then
        shanten.kokushiMerge fuel (l :: ys) ms changed b (d.ukihai ⟨r⟩)
      else if changed then
        shanten.kokushiMerge fuel (l :: ys) ms false b (d.kokushimusou r)
      else if b = false then
        shanten.kokushiMerge fuel (l :: ys) ms false true (d.kokushimusou r)
      else shanten.kokushiMerge fuel (l :: ys) ms false b (d.ukihai ⟨r⟩) := rfl

theorem kokushiMerge_valid_count :
    ∀ (fuel : Nat) (yao m : List Hai) (b : Bool) (d : shanten.Decomposer),
      yao.length + m.length ≤ fuel →
      List.Pairwise (fun a c => haiLt a c = true) yao →
      List.Pairwise (fun a c => haiLe a c = true) m →
      ((shanten.kokushiMerge fuel yao m true b
            d).chiitoutsu_kokushimusou_valid_tile_vec.length
        = d.chiitoutsu_kokushimusou_valid_tile_vec.length + presentCount yao m
          + (if b = false ∧ dupFlag yao m = true then 1 else 0))
      ∧ (∀ (l : Hai) (ys : List Hai), yao = l :: ys →
          (∀ x ∈ m, haiLe l x = true) →
          (shanten.kokushiMerge fuel (l :: ys) m false b
              d).chiitoutsu_kokushimusou_valid_tile_vec.length
            = d.chiitoutsu_kokushimusou_valid_tile_vec.length
              + (if b = false ∧ l ∈ m then 1 else 0)
              + presentCount ys (removeVal m l)
              + (if b = false ∧ l ∉ m ∧ dupFlag ys (removeVal m l) = true then 1
                 else 0)) := by
  intro fuel
  induction fuel with
  | zero =>
    intro yao m b d hfuel hyao hm
    have hyao0 : yao = [] := by
      cases yao with
      | nil => rfl
      | cons a t =>
        simp only [List.length_cons] at hfuel
        omega
    have hm0 : m = [] := by
      cases m with
      | nil => rfl
      | cons a t =>
        simp only [List.length_cons] at hfuel
        omega
    subst hyao0
    subst hm0
    constructor
    · simp [shanten.kokushiMerge, presentCount_nil_left, dupFlag_nil_left]
    · intro l ys he
      simp at he
  | succ f ih =>
    intro yao m b d hfuel hyao hm
    constructor
    · match yao, m with
      | [], m =>
        simp [shanten.kokushiMerge, presentCount_nil_left, dupFlag_nil_left]
      | l :: ys, [] =>
        simp [shanten.kokushiMerge, presentCount_nil_right, dupFlag_nil_right]
      | l :: ys, r :: ms =>
        have hfuel2 : ys.length + (r :: ms).length ≤ f := by
          simp only [List.length_cons] at hfuel ⊢
          omega
        have hfuel3 : (l :: ys).length + ms.length ≤ f := by
          simp only [List.length_cons] at hfuel ⊢
          omega
        have hyao2 := (List.pairwise_cons.1 hyao).2
        have hyaohd := (List.pairwise_cons.1 hyao).1
        have hm2 := (List.pairwise_cons.1 hm).2
        have hmhd := (List.pairwise_cons.1 hm).1
        by_cases hlr : haiLt l r = true
        · rw [kokushiMerge_cons, if_pos hlr]
          rw [(ih ys (r :: ms) b d hfuel2 hyao2 hm).1]
          have hlnot : l ∉ r :: ms := by
            intro hmem
            rcases List.mem_cons.1 hmem with rfl | hmem2
            · exact (ne_of_haiLt hlr) rfl
            · have h2 := hmhd l hmem2
              have h3 := haiLt_of_lt_of_le hlr h2
              rw [haiLt_irrefl] at h3
              simp at h3
          rw [presentCount_cons_not_mem hlnot, dupFlag_cons,
            List.count_eq_zero.2 hlnot]
          simp
        · by_cases hrl : haiLt r l = true
          · rw [kokushiMerge_cons, if_neg (by simp [hlr]), if_pos hrl]
            rw [(ih (l :: ys) ms b (d.ukihai ⟨r⟩) hfuel3 hyao hm2).1]
            have hry : ∀ y ∈ l :: ys, haiLt r y = true := by
              intro y hy
              rcases List.mem_cons.1 hy with rfl | hy2
              · exact hrl
              · exact haiLt_of_lt_of_le hrl (haiLt_iff_le_ne.1 (hyaohd y hy2)).1
            have hcong : ∀ y ∈ l :: ys, (y ∈ r :: ms ↔ y ∈ ms) := by
              intro y hy
              constructor
              · intro hmem
                rcases List.mem_cons.1 hmem with rfl | h2
                · have := hry y hy
                  rw [haiLt_irrefl] at this
                  simp at this
                · exact h2
              · exact List.mem_cons_of_mem r
            have hcount : ∀ y ∈ l :: ys, (r :: ms).count y = ms.count y := by
              intro y hy
              rw [List.count_cons]
              have h1 : ¬ y = r := fun e => (ne_of_haiLt (hry y hy)) (Eq.symm e)
              have h2 : ¬ r = y := fun e => h1 (Eq.symm e)
              simp [h1, h2]
            rw [presentCount_congr hcong, dupFlag_congr hcount]
            simp [shanten.Decomposer.ukihai]
          · have heq : l = r := eq_of_not_haiLt (by simpa using hlr) (by simpa using hrl)
            subst heq
            rw [kokushiMerge_cons, if_neg (by simp [hlr]), if_neg (by simp [hrl]),
              if_pos rfl]
            have hms_ge : ∀ x ∈ ms, haiLe l x = true := hmhd
            rw [(ih (l :: ys) ms b (d.kokushimusou l) hfuel3 hyao hm2).2 l ys rfl hms_ge]
            have hp : presentCount (l :: ys) (l :: ms)
                = presentCount ys (removeVal ms l) + 1 := by
              rw [presentCount_cons_mem (List.mem_cons_self l ms)]
              congr 1
              apply presentCount_congr
              intro y hy
              have hly : ¬ l = y := ne_of_haiLt (hyaohd y hy)
              simp only [List.mem_cons, mem_removeVal]
              constructor
              · rintro (rfl | h2)
                · exact absurd rfl hly
                · exact ⟨h2, fun e => hly e.symm⟩
              · rintro ⟨h2, _⟩
                exact Or.inr h2
            have hd : dupFlag (l :: ys) (l :: ms)
                = (decide (l ∈ ms) || dupFlag ys (removeVal ms l)) := by
              rw [dupFlag_cons]
              congr 1
              · have hcc : (l :: ms).count l = ms.count l + 1 := by
                  simp [List.count_cons]
                rw [hcc, decide_eq_decide]
                rw [← List.count_pos_iff_mem]
                omega
              · apply dupFlag_congr
                intro y hy
                have hly : ¬ l = y := ne_of_haiLt (hyaohd y hy)
                have hyl : ¬ y = l := fun e => hly (Eq.symm e)
                rw [count_removeVal, if_neg hyl, List.count_cons]
                simp [hly, hyl]
            rw [hp, hd]
            by_cases hb : b = false <;> by_cases hlm : l ∈ ms <;>
              by_cases hdr : dupFlag ys (removeVal ms l) = true <;>
              simp [hb, hlm, hdr, shanten.Decomposer.kokushimusou] <;> omega
    · intro l ys hyaoeq hlm
      subst hyaoeq
      match m with
      | [] =>
        simp [shanten.kokushiMerge, presentCount_nil_right, dupFlag_nil_right, removeVal]
      | r :: ms =>
        have hfuel2 : ys.length + (r :: ms).length ≤ f := by
          simp only [List.length_cons] at hfuel ⊢
          omega
        have hfuel3 : (l :: ys).length + ms.length ≤ f := by
          simp only [List.length_cons] at hfuel ⊢
          omega
        have hyao2 := (List.pairwise_cons.1 hyao).2
        have hyaohd := (List.pairwise_cons.1 hyao).1
        have hm2 := (List.pairwise_cons.1 hm).2
        have hmhd := (List.pairwise_cons.1 hm).1
        by_cases hlr : haiLt l r = true
        · rw [kokushiMerge_cons, if_pos hlr]
          rw [(ih ys (r :: ms) b d hfuel2 hyao2 hm).1]
          have hlnot : l ∉ r :: ms := by
            intro hmem
            rcases List.mem_cons.1 hmem with rfl | hmem2
            · exact (ne_of_haiLt hlr) rfl
            · have h2 := hmhd l hmem2
              have h3 := haiLt_of_lt_of_le hlr h2
              rw [haiLt_irrefl] at h3
              simp at h3
          rw [removeVal_eq_of_not_mem hlnot]
          simp only [hlnot, if_false, and_false, false_and]
          by_cases hb : b = false <;>
            by_cases hdr : dupFlag ys (r :: ms) = true <;>
            simp [hb, hdr, hlnot] <;> omega
        · by_cases hrl : haiLt r l = true
          · have hno := not_haiLt_of_haiLe (hlm r (List.mem_cons_self r ms))
            rw [hno] at hrl
            simp at hrl
          · have heq : l = r := eq_of_not_haiLt (by simpa using hlr) (by simpa using hrl)
            subst heq
            have hms_ge : ∀ x ∈ ms, haiLe l x = true := hmhd
            cases b with
            | false =>
              rw [kokushiMerge_cons, if_neg (by simp [hlr]), if_neg (by simp [hrl]),
                if_neg (by simp), if_pos rfl]
              rw [(ih (l :: ys) ms true (d.kokushimusou l) hfuel3 hyao hm2).2
                l ys rfl hms_ge]
              rw [removeVal_cons_self]
              simp [shanten.Decomposer.kokushimusou, List.mem_cons_self]
            | true =>
              rw [kokushiMerge_cons, if_neg (by simp [hlr]), if_neg (by simp [hrl]),
                if_neg (by simp), if_neg (by simp)]
              rw [(ih (l :: ys) ms true (d.ukihai ⟨l⟩) hfuel3 hyao hm2).2
                l ys rfl hms_ge]
              rw [removeVal_cons_self]
              simp [shanten.Decomposer.ukihai]

theorem kokushiMerge_hourakei :
    ∀ (fuel : Nat) (yao m : List Hai) (c b : Bool) (d : shanten.Decomposer),
      (shanten.kokushiMerge fuel yao m c b d).hourakei = d.hourakei := by
  intro fuel
  induction fuel with
  | zero =>
    intro yao m c b d
    rfl
  | succ f ihf =>
    intro yao m c b d
    match yao, m with
    | [], _ => rfl
    | _ :: _, [] => rfl
    | l :: ys, r :: ms =>
      rw [kokushiMerge_cons]
      split_ifs <;>
        simp [ihf, shanten.Decomposer.ukihai, shanten.Decomposer.kokushimusou]

/-- C3: on a sorted concealed hand, the thirteen-orphans evaluator of
`shanten::calculate` counts one valid tile per distinct terminal/honor value
present plus exactly one more when some terminal/honor value occurs at least
twice, and its distance is `13 - validCount`; in particular a hand
containing all 13 orphan values with a duplicate among them gets distance
−1. -/
theorem kokushimusou_evaluator_spec (menzen : List Hai)
    (hsorted : List.Pairwise (fun a b => haiLe a b = true) menzen) :
    ((shanten.kokushiDecomposer menzen).chiitoutsu_kokushimusou_valid_tile_vec.length
        = yaoPresentCount menzen + (if hasYaoDup menzen = true then 1 else 0)
     ∧ (shanten.kokushiDecomposer menzen).shanten_number menzen.length
        = 13 - ((shanten.kokushiDecomposer
            menzen).chiitoutsu_kokushimusou_valid_tile_vec.length : Int))
    ∧ ((∀ y ∈ YAOCHUUPAI, y ∈ menzen) → hasYaoDup menzen = true →
        (shanten.kokushiDecomposer menzen).shanten_number menzen.length = -1) := by
  have hdec : shanten.kokushiDecomposer menzen
      = shanten.kokushiMerge (YAOCHUUPAI.length + menzen.length) YAOCHUUPAI menzen
          true false ⟨[], [], [], [], [], shanten.Hourakei.Kokushimusou⟩ := rfl
  have hyao : List.Pairwise (fun a c => haiLt a c = true) YAOCHUUPAI := by decide
  have hcount := (kokushiMerge_valid_count (YAOCHUUPAI.length + menzen.length)
    YAOCHUUPAI menzen false ⟨[], [], [], [], [], shanten.Hourakei.Kokushimusou⟩
    (le_refl _) hyao hsorted).1
  simp only [List.length_nil, Nat.zero_add] at hcount
  have hhour : (shanten.kokushiDecomposer menzen).hourakei
      = shanten.Hourakei.Kokushimusou := by
    rw [hdec, kokushiMerge_hourakei]
  have hlen : (shanten.kokushiDecomposer menzen).chiitoutsu_kokushimusou_valid_tile_vec.length
      = yaoPresentCount menzen + (if hasYaoDup menzen = true then 1 else 0) := by
    rw [hdec]
    rw [hcount]
    simp [yaoPresentCount, hasYaoDup]
  have hformula : (shanten.kokushiDecomposer menzen).shanten_number menzen.length
      = 13 - ((shanten.kokushiDecomposer
          menzen).chiitoutsu_kokushimusou_valid_tile_vec.length : Int) := by
    simp only [shanten.Decomposer.shanten_number, hhour]
  refine ⟨⟨hlen, hformula⟩, ?_⟩
  intro hall hdup
  have hpresent : yaoPresentCount menzen = 13 := by
    unfold yaoPresentCount presentCount
    rw [List.filter_eq_self.2 (fun y hy => by simpa using hall y hy)]
    rfl
  rw [hformula, hlen, hpresent, hdup]
  decide

/-- Witness for C3 at the concrete sorted hand `1m1m9m1p9p1s9s1z2z3z4z5z6z7z`
(all 13 orphan values, `1m` duplicated): the evaluator gives distance −1. -/
theorem kokushimusou_evaluator_spec_witness :
    (shanten.kokushiDecomposer
        [Hai.Manzu 1, Hai.Manzu 1, Hai.Manzu 9, Hai.Pinzu 1, Hai.Pinzu 9, Hai.Souzu 1,
         Hai.Souzu 9, Hai.Jihai 1, Hai.Jihai 2, Hai.Jihai 3, Hai.Jihai 4, Hai.Jihai 5,
         Hai.Jihai 6, Hai.Jihai 7]).shanten_number 14 = -1 := by
  have h := (kokushimusou_evaluator_spec
    [Hai.Manzu 1, Hai.Manzu 1, Hai.Manzu 9, Hai.Pinzu 1, Hai.Pinzu 9, Hai.Souzu 1,
     Hai.Souzu 9, Hai.Jihai 1, Hai.Jihai 2, Hai.Jihai 3, Hai.Jihai 4, Hai.Jihai 5,
     Hai.Jihai 6, Hai.Jihai 7] (by decide)).2 (by decide) (by decide)
  simpa using h

/-!  C4 and C10: the wait-analysis map.  Lookup lemmas for the association
list standing in for the Rust `BTreeMap`, the decrement characterization of
`finally_handle`, and the origin of every condition returned by `analyze`. -/

theorem lookup_filter_key_ne (t : List (Hai × Nat)) (k k2 : Hai) (h : k2 ≠ k) :
    (t.filter (fun p => !(p.1 == k))).lookup k2 = t.lookup k2 := by
  induction t with
  | nil => rfl
  | cons p t ih =>
    obtain ⟨a, b⟩ := p
    rw [List.filter_cons]
    by_cases hak : a = k
    · rw [if_neg (by simp [hak])]
      rw [ih, List.lookup_cons]
      have hb : (k2 == a) = false := by simp [hak, h]
      simp [hb]
    · rw [if_pos (by simp [hak])]
      rw [List.lookup_cons, List.lookup_cons]
      by_cases hk2a : k2 = a
      · simp [hk2a]
      · have hb : (k2 == a) = false := by simp [hk2a]
        simp [hb, ih]

theorem lookup_filter_key_self (t : List (Hai × Nat)) (k : Hai) :
    (t.filter (fun p => !(p.1 == k))).lookup k = none := by
  induction t with
  | nil => rfl
  | cons p t ih =>
    obtain ⟨a, b⟩ := p
    rw [List.filter_cons]
    by_cases hak : a = k
    · rw [if_neg (by simp [hak])]
      exact ih
    · rw [if_pos (by simp [hak])]
      rw [List.lookup_cons]
      have hka : ¬ k = a := fun e => hak (Eq.symm e)
      have hb : (k == a) = false := by simp [hka]
      simp [hb, ih]

theorem lookup_mapRemove_ne {m : List (Hai × Nat)} {k k2 : Hai} (h : k2 ≠ k) :
    (machi.mapRemove m k).lookup k2 = m.lookup k2 :=
  lookup_filter_key_ne m k k2 h

theorem lookup_mapRemove_self (m : List (Hai × Nat)) (k : Hai) :
    (machi.mapRemove m k).lookup k = none :=
  lookup_filter_key_self m k

theorem lookup_mapInsert_self (m : List (Hai × Nat)) (k : Hai) (v : Nat) :
    (machi.mapInsert m k v).lookup k = some v := by
  simp [machi.mapInsert, List.lookup_cons]

theorem lookup_mapInsert_ne {m : List (Hai × Nat)} {k k2 : Hai} (v : Nat) (h : k2 ≠ k) :
    (machi.mapInsert m k v).lookup k2 = m.lookup k2 := by
  unfold machi.mapInsert
  rw [List.lookup_cons]
  have hb : (k2 == k) = false := by simp [h]
  simp only [hb, cond_false]
  exact lookup_filter_key_ne m k k2 h

theorem lookup_check_count_ne {m : List (Hai × Nat)} {item k : Hai} (h : k ≠ item) :
    (machi.check_count m item).lookup k = m.lookup k := by
  unfold machi.check_count
  cases m.lookup item with
  | none => rfl
  | some v =>
    dsimp only
    split_ifs
    · exact lookup_mapInsert_ne _ h
    · exact lookup_mapRemove_ne h
    · rfl

theorem lookup_check_count_self {m : List (Hai × Nat)} {item : Hai} {v : Nat}
    (hm : m.lookup item = some v) (hv : 1 ≤ v) :
    (machi.check_count m item).lookup item
      = if 1 < v then some (v - 1) else none := by
  unfold machi.check_count
  rw [hm]
  dsimp only
  split_ifs with h1 h2
  · exact lookup_mapInsert_self _ _ _
  · exact lookup_mapRemove_self _ _
  · omega

theorem lookup_check_count_none {m : List (Hai × Nat)} {item : Hai}
    (hm : m.lookup item = none) :
    (machi.check_count m item).lookup item = none := by
  unfold machi.check_count
  rw [hm]
  exact hm

theorem check_count_values {m : List (Hai × Nat)} {item : Hai}
    (h : ∀ k v, m.lookup k = some v → 1 ≤ v) :
    ∀ k v, (machi.check_count m item).lookup k = some v → 1 ≤ v := by
  intro k v hkv
  by_cases hki : k = item
  · subst hki
    cases hm : m.lookup k with
    | none =>
      rw [lookup_check_count_none hm] at hkv
      simp at hkv
    | some w =>
      have hw := h k w hm
      rw [lookup_check_count_self hm hw] at hkv
      split_ifs at hkv with h1
      simp only [Option.some.injEq] at hkv
      omega
  · rw [lookup_check_count_ne hki] at hkv
    exact h k v hkv

theorem lookup_foldl_check_count :
    ∀ (ts : List Hai) (m : List (Hai × Nat)),
      (∀ k v, m.lookup k = some v → 1 ≤ v) →
      ∀ k, (ts.foldl machi.check_count m).lookup k
        = (m.lookup k).bind
            (fun v => if ts.count k < v then some (v - ts.count k) else none) := by
  intro ts
  induction ts with
  | nil =>
    intro m h k
    simp only [List.foldl_nil, List.count_nil]
    cases hmk : m.lookup k with
    | none => simp
    | some v =>
      have hv := h k v hmk
      simp only [Option.some_bind]
      rw [if_pos (by omega)]
      simp
  | cons i ts ih =>
    intro m h k
    simp only [List.foldl_cons]
    rw [ih (machi.check_count m i) (check_count_values h)]
    by_cases hki : k = i
    · subst hki
      cases hmk : m.lookup k with
      | none =>
        rw [lookup_check_count_none hmk]
        simp
      | some v =>
        have hv := h k v hmk
        rw [lookup_check_count_self hmk hv]
        have hcc : (k :: ts).count k = ts.count k + 1 := by
          simp [List.count_cons]
        simp only [hcc]
        split_ifs with h1
        · simp only [Option.some_bind]
          by_cases h2 : ts.count k < v - 1
          · rw [if_pos h2, if_pos (by omega)]
            simp only [Option.some.injEq]
            omega
          · rw [if_neg h2, if_neg (by omega)]
        · have hv1 : v = 1 := by omega
          subst hv1
          simp
    · rw [lookup_check_count_ne hki]
      have hcc : (i :: ts).count k = ts.count k := by
        rw [List.count_cons]
        have hik : ¬ i = k := fun e => hki (Eq.symm e)
        simp [hki, hik]
      simp only [hcc]

theorem lookup_foldl_insert4 :
    ∀ (ks : List Hai) (m : List (Hai × Nat)) (k : Hai) (v : Nat),
      ((ks.foldl (fun acc kk => machi.mapInsert acc kk 4) m).lookup k = some v) →
      v = 4 ∨ m.lookup k = some v := by
  intro ks
  induction ks with
  | nil =>
    intro m k v h
    exact Or.inr h
  | cons a ks ih =>
    intro m k v h
    simp only [List.foldl_cons] at h
    rcases ih _ _ _ h with h4 | hbase
    · exact Or.inl h4
    · by_cases hka : k = a
      · subst hka
        rw [lookup_mapInsert_self] at hbase
        simp only [Option.some.injEq] at hbase
        exact Or.inl hbase.symm
      · rw [lookup_mapInsert_ne _ hka] at hbase
        exact Or.inr hbase

theorem handle_furiten {c : machi.Condition} {d : shanten.Decomposer}
    {c2 : machi.Condition} (h : machi.Condition.handle c d = .ok c2) :
    c2.furiten = c.furiten := by
  unfold machi.Condition.handle at h
  split_ifs at h
  · injection h with h
    subst h
    rfl
  · injection h with h
    subst h
    rfl
  · cases hks : c.waitKeys d with
    | error e =>
      rw [hks] at h
      simp [Bind.bind, Except.bind] at h
    | ok ks =>
      rw [hks] at h
      simp only [Bind.bind, Except.bind, Except.ok.injEq] at h
      subst h
      rfl

theorem handle_machihai_values {c : machi.Condition} {d : shanten.Decomposer}
    {c2 : machi.Condition} (h : machi.Condition.handle c d = .ok c2)
    (hc : ∀ k v, c.machihai.lookup k = some v → v = 4) :
    ∀ k v, c2.machihai.lookup k = some v → v = 4 := by
  unfold machi.Condition.handle at h
  split_ifs at h
  · injection h with h
    subst h
    exact hc
  · injection h with h
    subst h
    exact hc
  · cases hks : c.waitKeys d with
    | error e =>
      rw [hks] at h
      simp [Bind.bind, Except.bind] at h
    | ok ks =>
      rw [hks] at h
      simp only [Bind.bind, Except.bind, Except.ok.injEq] at h
      subst h
      intro k v hkv
      rcases lookup_foldl_insert4 ks c.machihai k v hkv with h4 | hbase
      · exact h4
      · exact hc k v hbase

theorem foldlM_handle_furiten :
    ∀ (ds : List shanten.Decomposer) (c c2 : machi.Condition),
      List.foldlM machi.Condition.handle c ds = .ok c2 →
      c2.furiten = c.furiten := by
  intro ds
  induction ds with
  | nil =>
    intro c c2 h
    simp only [List.foldlM_nil, Pure.pure, Except.pure, Except.ok.injEq] at h
    subst h
    rfl
  | cons d t ih =>
    intro c c2 h
    simp only [List.foldlM_cons] at h
    cases hh : machi.Condition.handle c d with
    | error e =>
      rw [hh] at h
      simp [Bind.bind, Except.bind] at h
    | ok c1 =>
      rw [hh] at h
      simp only [Bind.bind, Except.bind] at h
      rw [ih c1 c2 h, handle_furiten hh]

theorem foldlM_handle_values :
    ∀ (ds : List shanten.Decomposer) (c c2 : machi.Condition),
      List.foldlM machi.Condition.handle c ds = .ok c2 →
      (∀ k v, c.machihai.lookup k = some v → v = 4) →
      ∀ k v, c2.machihai.lookup k = some v → v = 4 := by
  intro ds
  induction ds with
  | nil =>
    intro c c2 h hc
    simp only [List.foldlM_nil, Pure.pure, Except.pure, Except.ok.injEq] at h
    subst h
    exact hc
  | cons d t ih =>
    intro c c2 h hc
    simp only [List.foldlM_cons] at h
    cases hh : machi.Condition.handle c d with
    | error e =>
      rw [hh] at h
      simp [Bind.bind, Except.bind] at h
    | ok c1 =>
      rw [hh] at h
      simp only [Bind.bind, Except.bind] at h
      exact ih c1 c2 h (handle_machihai_values hh hc)

theorem mapM_ok_mem {α β : Type} (f : α → Except String β) :
    ∀ (l : List α) (out : List β), l.mapM f = .ok out →
      ∀ b ∈ out, ∃ a ∈ l, f a = .ok b := by
  intro l
  induction l with
  | nil =>
    intro out h b hb
    simp only [List.mapM_nil, Pure.pure, Except.pure, Except.ok.injEq] at h
    subst h
    simp at hb
  | cons a t ih =>
    intro out h b hb
    rw [List.mapM_cons] at h
    cases hfa : f a with
    | error e =>
      rw [hfa] at h
      simp [Bind.bind, Except.bind] at h
    | ok b0 =>
      rw [hfa] at h
      simp only [Bind.bind, Except.bind] at h
      cases ht : t.mapM f with
      | error e =>
        rw [ht] at h
        simp [Except.bind] at h
      | ok bs =>
        rw [ht] at h
        simp only [Pure.pure, Except.pure, Except.ok.injEq] at h
        subst h
        rcases List.mem_cons.mp hb with rfl | hbs
        · exact ⟨a, List.mem_cons_self a t, hfa⟩
        · obtain ⟨a2, ha2, hfa2⟩ := ih bs ht b hbs
          exact ⟨a2, List.mem_cons_of_mem a ha2, hfa2⟩

theorem fuuro_fold_check_count :
    ∀ (fuuro : List Mentsu) (m : List (Hai × Nat)),
      fuuro.foldl (fun acc mentsu => (machi.mentsuToList mentsu).foldl machi.check_count acc) m
        = ((fuuro.map machi.mentsuToList).flatten).foldl machi.check_count m := by
  intro fuuro
  induction fuuro with
  | nil => intro m; rfl
  | cons g t ih =>
    intro m
    simp only [List.foldl_cons, List.map_cons, List.flatten_cons, List.foldl_append]
    exact ih _

theorem finally_handle_eq {c : machi.Condition} {tehai : Tehai} {yama : Option Haiyama}
    {menzen : List Hai} (hmz : tehai.menzen = .ok menzen) :
    machi.Condition.finally_handle c tehai yama
      = .ok { c with machihai := (menzen ++ (tehai.fuuro.map machi.mentsuToList).flatten).foldl machi.check_count c.machihai } := by
  unfold machi.Condition.finally_handle
  rw [hmz]
  simp only [Bind.bind, Except.bind, fuuro_fold_check_count, List.foldl_append]

theorem analyze_mem_inv {tehai : Tehai} {yama : Option Haiyama} {s : Int}
    {conds : List machi.Condition} {c : machi.Condition}
    (h : machi.analyze tehai yama = .ok (s, conds)) (hc : c ∈ conds) :
    0 < c.nokori ∧
    ∃ (ds : List shanten.Decomposer) (c1 : machi.Condition) (su : Hai) (menzen : List Hai),
      tehai.menzen = .ok menzen ∧
      List.foldlM machi.Condition.handle (machi.Condition.new su s menzen.length) ds = .ok c1 ∧
      machi.Condition.finally_handle c1 tehai yama = .ok c := by
  unfold machi.analyze at h
  cases hcal : shanten.calculate tehai with
  | error e =>
    rw [hcal] at h
    simp [Bind.bind, Except.bind] at h
  | ok p =>
    obtain ⟨s0, ds⟩ := p
    rw [hcal] at h
    simp only [Bind.bind, Except.bind] at h
    split_ifs at h with h0 h1 h2
    · simp only [Except.ok.injEq, Prod.mk.injEq] at h
      obtain ⟨hs, hconds⟩ := h
      subst hconds
      simp at hc
    · cases hmz : tehai.menzen with
      | error e =>
        rw [hmz] at h
        simp [Bind.bind, Except.bind] at h
      | ok menzen =>
        rw [hmz] at h
        simp only [Bind.bind, Except.bind] at h
        split at h
        next err heq => simp at h
        next cv heq =>
          simp only [Except.ok.injEq, Prod.mk.injEq] at h
          obtain ⟨hs, hconds⟩ := h
          subst hs
          subst hconds
          have hck : c ∈ (cv.filter (fun cond => 0 < cond.nokori)) :=
            (List.perm_insertionSort machi.condLe _).mem_iff.mp hc
          have hcv := List.mem_filter.mp hck
          refine ⟨of_decide_eq_true hcv.2, ?_⟩
          obtain ⟨su, hsu, hf⟩ := mapM_ok_mem _ _ _ heq c hcv.1
          split at hf
          next err heq2 => simp at hf
          next c1 heq2 => exact ⟨ds, c1, su, menzen, rfl, heq2, hf⟩
    · simp only [Except.ok.injEq, Prod.mk.injEq] at h
      obtain ⟨hs, hconds⟩ := h
      subst hconds
      simp at hc

/-- C4: in every `Condition` returned by `machi::analyze`, the remaining
count recorded for each wait tile equals `4` minus the copies of that tile
visible in the concealed hand and the declared open groups; wait tiles whose
count would reach zero are removed from the map, conditions whose wait set
sums to zero are removed from the result list, and every reported count lies
between `1` and `4` inclusive. -/
theorem machi_remaining_counts_spec {tehai : Tehai} {yama : Option Haiyama}
    {menzen : List Hai} {s : Int} {conds : List machi.Condition}
    (hmz : tehai.menzen = .ok menzen)
    (h : machi.analyze tehai yama = .ok (s, conds)) :
    ∀ c ∈ conds, 0 < c.nokori ∧
      ∀ k v, c.machihai.lookup k = some v →
        v + visibleCount menzen tehai.fuuro k = 4 ∧ 1 ≤ v ∧ v ≤ 4 := by
  intro c hc
  obtain ⟨hn, ds, c1, su, menzen2, hmz2, hfold, hfin⟩ := analyze_mem_inv h hc
  refine ⟨hn, ?_⟩
  rw [hmz] at hmz2
  injection hmz2 with hmz2
  subst hmz2
  have hvals4 : ∀ k v, c1.machihai.lookup k = some v → v = 4 := by
    refine foldlM_handle_values ds _ c1 hfold ?_
    intro k v hkv
    simp [machi.Condition.new] at hkv
  have hvals1 : ∀ k v, c1.machihai.lookup k = some v → 1 ≤ v := by
    intro k v hkv
    have := hvals4 k v hkv
    omega
  rw [finally_handle_eq hmz] at hfin
  injection hfin with hfin
  have hcm : c.machihai
      = (menzen ++ (tehai.fuuro.map machi.mentsuToList).flatten).foldl
          machi.check_count c1.machihai := by
    rw [← hfin]
  intro k v hkv
  rw [hcm, lookup_foldl_check_count _ _ hvals1 k] at hkv
  cases hl : c1.machihai.lookup k with
  | none =>
    rw [hl] at hkv
    simp at hkv
  | some v0 =>
    rw [hl] at hkv
    have h4 := hvals4 k v0 hl
    subst h4
    have hts : (menzen ++ (tehai.fuuro.map machi.mentsuToList).flatten).count k
        = visibleCount menzen tehai.fuuro k := by
      simp [visibleCount, List.count_append]
    simp only [Option.some_bind] at hkv
    split_ifs at hkv with hlt
    injection hkv with hkv
    rw [hts] at hlt hkv
    omega

/-- Witness for C4: the hand `1m2m` (no open groups, no pool) yields the
discard candidate `1m` waiting on `2m` with remaining count `3 = 4 - 1`;
the condition's wait total is positive and `3` lies in `1..4`. -/
theorem machi_remaining_counts_spec_witness :
    0 < (⟨Hai.Manzu 1, [(Hai.Manzu 2, 3)], false, 0, 2⟩ : machi.Condition).nokori ∧
    (3 : Nat) + visibleCount [Hai.Manzu 1, Hai.Manzu 2] [] (Hai.Manzu 2) = 4 ∧
    (1 : Nat) ≤ 3 ∧ (3 : Nat) ≤ 4 := by
  have hana : machi.analyze ⟨Except.ok [Hai.Manzu 1, Hai.Manzu 2], []⟩ none
      = .ok (0, [⟨Hai.Manzu 1, [(Hai.Manzu 2, 3)], false, 0, 2⟩,
        ⟨Hai.Manzu 2, [(Hai.Manzu 1, 3)], false, 0, 2⟩]) := by decide
  have h := machi_remaining_counts_spec rfl hana
  obtain ⟨h1, h2⟩ := h ⟨Hai.Manzu 1, [(Hai.Manzu 2, 3)], false, 0, 2⟩ (by decide)
  exact ⟨h1, h2 (Hai.Manzu 2) 3 (by decide)⟩

/-- C10: every `Condition` returned by `machi::analyze` has its furiten
flag equal to `false`: the flag is initialized to `false` by
`Condition::new` and neither `handle` nor `finally_handle` ever writes it. -/
theorem furiten_always_false {tehai : Tehai} {yama : Option Haiyama}
    {s : Int} {conds : List machi.Condition}
    (h : machi.analyze tehai yama = .ok (s, conds)) :
    ∀ c ∈ conds, c.furiten = false := by
  intro c hc
  obtain ⟨-, ds, c1, su, menzen, hmz, hfold, hfin⟩ := analyze_mem_inv h hc
  have h1 : c1.furiten = false := by
    rw [foldlM_handle_furiten ds _ c1 hfold]
    rfl
  rw [finally_handle_eq hmz] at hfin
  injection hfin with hfin
  have h2 : c.furiten = c1.furiten := by
    rw [← hfin]
  rw [h2, h1]

/-- Witness for C10: the hand `1p2p` yields the discard candidate `1p`
waiting on `2p`, and its furiten flag is `false`. -/
theorem furiten_always_false_witness :
    (⟨Hai.Pinzu 1, [(Hai.Pinzu 2, 3)], false, 0, 2⟩ : machi.Condition).furiten = false := by
  have hana : machi.analyze ⟨Except.ok [Hai.Pinzu 1, Hai.Pinzu 2], []⟩ none
      = .ok (0, [⟨Hai.Pinzu 1, [(Hai.Pinzu 2, 3)], false, 0, 2⟩,
        ⟨Hai.Pinzu 2, [(Hai.Pinzu 1, 3)], false, 0, 2⟩]) := by decide
  exact furiten_always_false hana ⟨Hai.Pinzu 1, [(Hai.Pinzu 2, 3)], false, 0, 2⟩ (by decide)
